import Mathlib

/-!
# Share handler of `pkg/server/share.go`

A shallow embedding of `handleGetViaSharing` and `shareHandler.ServeHTTP`:
the capability-chain walk over a content-addressed store, the response
dispatch, and the timing floor applied by the deferred function.

The handler is embedded as a pure function from its environment (the
collaborators it calls), the two clock readings it takes and the request, to
the ordered list of effects it performs.
-/

namespace ShareHandler

/-! ## Go base types -/

/-- One Go `byte`. -/
abbrev Byte := UInt8

/-- A Go `string` or `[]byte`: a finite sequence of bytes. The conversion
`[]byte(s)` is the identity on this representation. -/
abbrev GoString := List Byte

/-- The Go string written as an ASCII literal. -/
def ascii (s : String) : GoString :=
  s.toList.map (fun c => c.toNat.toUInt8)

/-- Smallest value of `time.Duration` (an `int64` count of nanoseconds). -/
def minDuration : Int := -(2 ^ 63)

/-- Largest value of `time.Duration`. -/
def maxDuration : Int := 2 ^ 63 - 1

/-- Two's-complement wrap-around of an `int64` result. -/
def wrapInt64 (x : Int) : Int :=
  (x + 2 ^ 63) % 2 ^ 64 - 2 ^ 63

/-- Go `time.Time.Sub` on instants given as nanosecond counts: the duration
`t - u`, saturated at the largest and smallest `time.Duration`. -/
def timeSub (t u : Int) : Int :=
  if t - u < minDuration then minDuration
  else if maxDuration < t - u then maxDuration
  else t - u

/-- Go `time.Sleep d`: the length of the pause; a negative or zero duration
returns immediately. -/
def sleepPause (d : Int) : Int :=
  if d ≤ 0 then 0 else d

/-- The constant `fetchFailureDelay = 200 * time.Millisecond`, in nanoseconds. -/
def fetchFailureDelay : Int := 200 * 1000000

/-! ## Go library functions used by the handler -/

/-- Go `bytes.HasPrefix s sep`. -/
def hasPrefix : GoString → GoString → Bool
  | _, [] => true
  | [], _ :: _ => false
  | b :: s, c :: sep => b == c && hasPrefix s sep

/-- Scan of `bytes.Index`: the first position, counted from `i`, at which `sep`
starts in `s`, or `-1`. -/
def bytesIndexFrom (sep : GoString) : GoString → Nat → Int
  | [], i => if hasPrefix [] sep then (i : Int) else -1
  | b :: s, i => if hasPrefix (b :: s) sep then (i : Int) else bytesIndexFrom sep s (i + 1)

/-- Go `bytes.Index s sep`: the index of the first instance of `sep` in `s`, or
`-1` if `sep` is not present in `s`. -/
def bytesIndex (s sep : GoString) : Int :=
  bytesIndexFrom sep s 0

/-- Loop of `strings.Split s sep` for a one-byte separator: `cur` holds the
bytes of the current piece, last byte first. -/
def stringsSplitAux (sep : Byte) : GoString → GoString → List GoString
  | [], cur => [cur.reverse]
  | b :: s, cur =>
    if b = sep then cur.reverse :: stringsSplitAux sep s []
    else stringsSplitAux sep s (b :: cur)

/-- Go `strings.Split s sep` for a one-byte separator. -/
def stringsSplit (s : GoString) (sep : Byte) : List GoString :=
  stringsSplitAux sep s []

/-- First element of Go `strings.SplitN s sep 2` for a one-byte separator: the
text before the first separator, or all of `s` when it has none. -/
def stringsSplitN2Head (sep : Byte) : GoString → GoString
  | [] => []
  | b :: s => if b = sep then [] else b :: stringsSplitN2Head sep s

/-- Go `strconv.ParseBool`, boolean result only (the handler drops the error,
so every other text gives `false`). -/
def parseBool (str : GoString) : Bool :=
  if str = ascii "1" ∨ str = ascii "t" ∨ str = ascii "T" ∨ str = ascii "TRUE"
      ∨ str = ascii "true" ∨ str = ascii "True" then true
  else false

/-! ## Collaborators -/

/-- Modelled from the spec: `blob.Ref`, declared in package `blob` outside this
source tree. A reference is an opaque identifier whose equality is equality of
its canonical textual form, the text `String()` returns. -/
structure Ref where
  String : GoString
deriving DecidableEq, Repr

/-- The stream returned by `FetchStreaming`: it yields `data` and then ends,
with end-of-file when `readErr` is `none` and with that read error otherwise. -/
structure File where
  data : GoString
  readErr : Option String
deriving DecidableEq, Repr

/-- Go `ioutil.ReadAll (io.LimitReader file n)`: at most `n` bytes are taken
from the stream; the stream's own end is reached only when it is shorter than
`n`, and only then can its read error surface. -/
def readAllLimit (file : File) (n : Int) : Except String GoString :=
  if n ≤ 0 then .ok []
  else if n.toNat ≤ file.data.length then .ok (file.data.take n.toNat)
  else match file.readErr with
    | none => .ok file.data
    | some err => .error err

/-- The share descriptor as the handler observes it: the results of
`share.Target()`, `share.IsTransitive()` and `share.IsExpired()`. -/
structure Share where
  Target : Ref
  IsTransitive : Bool
  IsExpired : Bool
deriving DecidableEq, Repr

/-- The schema blob as the handler observes it: the result of `blob.AsShare()`,
`none` when the blob is not a share. -/
structure SchemaBlob where
  AsShare : Option Share
deriving DecidableEq, Repr

/-- The collaborators of the handler, all declared outside this source tree:
the constant `schema.MaxSchemaBlobSize`, `blob.Parse`, the streaming fetcher
(stream and reported size, or an error) and `schema.BlobFromReader`. -/
structure Env where
  MaxSchemaBlobSize : Int
  Parse : GoString → Option Ref
  FetchStreaming : Ref → Except String (File × Int)
  BlobFromReader : Ref → File → Except String SchemaBlob

/-- What the handler reads from the `http.Request`. -/
structure Request where
  IsGet : Bool
  via : GoString
  assemble : GoString
  PathSuffix : GoString
deriving DecidableEq, Repr

/-- The two readings of `time.Now()` of one run, in nanoseconds: `startTime`
before the chain is built, `deferTime` inside the deferred function. -/
structure Clock where
  startTime : Int
  deferTime : Int
deriving DecidableEq, Repr

/-! ## Effects -/

/-- The lines written by `log.Printf` and `log.Print`, with their arguments. -/
inductive LogMsg where
  | fetchChain0Failed (br : GoString) (err : String)
  | fetchChain0TooLarge (br : GoString)
  | cantCreateBlob (br : GoString) (err : String)
  | notValidShare (br : GoString)
  | shareExpired
  | hopUnauthorized (br next target : GoString)
  | shareNotTransitive
  | fetchChainFailed (i : Nat) (br : GoString) (err : String)
  | fetchChainSlurpFailed (i : Nat) (br : GoString) (err : String)
  | noReference (i : Nat) (br saught : GoString)
deriving DecidableEq, Repr

/-- The calls the handler makes to the outside, in the order it makes them. -/
inductive Event where
  | badRequest (msg : String)
  | httpError (msg : GoString) (code : Nat)
  | fetch (br : Ref)
  | decode (br : Ref)
  | log (msg : LogMsg)
  | sendUnauthorized
  | download (br : Ref)
  | serveBlobRef (br : Ref)
  | close (br : Ref)
  | sleep (d : Int)
deriving DecidableEq, Repr

/-- The state of the handler when the loop over the fetch chain is left:
the effects so far, the streams whose `Close` is deferred (in the order they
were opened), and `some isTransitive` when the loop ran to its end or `none`
when the handler returned from inside it. -/
structure Walk where
  events : List Event
  deferred : List Ref
  result : Option Bool
deriving DecidableEq, Repr

/-- The outcome of the chain verification. -/
inductive VerificationOutcome where
  | Authorized (isTransitive : Bool)
  | Denied
deriving DecidableEq, Repr

/-! ## The handler -/

/-- The test `len(fetchChain) > 1 && fetchChain[1].String() != share.Target().String()`. -/
def targetMismatch (fetchChain : List Ref) (share : Share) : Bool :=
  match fetchChain with
  | _ :: next :: _ => next.String != share.Target.String
  | _ => false

/-- The log line of the target mismatch, which prints `fetchChain[1]`. -/
def hopUnauthorizedLog (fetchChain : List Ref) (br : Ref) (share : Share) : LogMsg :=
  .hopUnauthorized br.String (fetchChain.getD 1 br).String share.Target.String

/-- Loop body for `i = 0` (`case 0`): the root hop. -/
def rootHop (env : Env) (fetchChain : List Ref) (br : Ref) : Walk :=
  match env.FetchStreaming br with
  | .error err =>
    ⟨[.fetch br, .log (.fetchChain0Failed br.String err), .sendUnauthorized], [], none⟩
  | .ok (file, size) =>
    if size > env.MaxSchemaBlobSize then
      ⟨[.fetch br, .log (.fetchChain0TooLarge br.String), .sendUnauthorized], [br], none⟩
    else
      match env.BlobFromReader br file with
      | .error err =>
        ⟨[.fetch br, .decode br, .log (.cantCreateBlob br.String err), .sendUnauthorized],
          [br], none⟩
      | .ok blob =>
        match blob.AsShare with
        | none =>
          ⟨[.fetch br, .decode br, .log (.notValidShare br.String), .sendUnauthorized],
            [br], none⟩
        | some share =>
          if share.IsExpired then
            ⟨[.fetch br, .decode br, .log .shareExpired, .sendUnauthorized], [br], none⟩
          else if targetMismatch fetchChain share then
            ⟨[.fetch br, .decode br, .log (hopUnauthorizedLog fetchChain br share),
              .sendUnauthorized], [br], none⟩
          else if fetchChain.length > 2 && !share.IsTransitive then
            ⟨[.fetch br, .decode br, .log .shareNotTransitive, .sendUnauthorized],
              [br], none⟩
          else
            ⟨[.fetch br, .decode br], [br], some share.IsTransitive⟩

/-- Loop body for `0 < i < len(fetchChain) - 1` (`default`): an interior hop.
There `i + 1` is a valid index of `fetchChain`. -/
def interiorHop (env : Env) (fetchChain : List Ref) (i : Nat) (br : Ref)
    (isTransitive : Bool) : Walk :=
  match env.FetchStreaming br with
  | .error err =>
    ⟨[.fetch br, .log (.fetchChainFailed i br.String err), .sendUnauthorized], [], none⟩
  | .ok (file, _) =>
    match readAllLimit file env.MaxSchemaBlobSize with
    | .error err =>
      ⟨[.fetch br, .log (.fetchChainSlurpFailed i br.String err), .sendUnauthorized],
        [br], none⟩
    | .ok slurpBytes =>
      let saught := (fetchChain.getD (i + 1) br).String
      if bytesIndex slurpBytes saught = -1 then
        ⟨[.fetch br, .log (.noReference i br.String saught), .sendUnauthorized], [br], none⟩
      else
        ⟨[.fetch br], [br], some isTransitive⟩

/-- One iteration of `for i, br := range fetchChain`, the `switch i`. -/
def hop (env : Env) (fetchChain : List Ref) (i : Nat) (br : Ref) (isTransitive : Bool) :
    Walk :=
  if i = 0 then rootHop env fetchChain br
  else if i = fetchChain.length - 1 then ⟨[], [], some isTransitive⟩
  else interiorHop env fetchChain i br isTransitive

/-- The loop `for i, br := range fetchChain` from index `i` on, `rest` being the
elements not yet visited. -/
def walkLoop (env : Env) (fetchChain : List Ref) : Nat → List Ref → Bool → Walk
  | _, [], isTransitive => ⟨[], [], some isTransitive⟩
  | i, br :: rest, isTransitive =>
    let h := hop env fetchChain i br isTransitive
    match h.result with
    | none => h
    | some t =>
      let w := walkLoop env fetchChain (i + 1) rest t
      ⟨h.events ++ w.events, h.deferred ++ w.deferred, w.result⟩

/-- The whole loop over the fetch chain, entered with `isTransitive := false`. -/
def chainWalk (env : Env) (fetchChain : List Ref) : Walk :=
  walkLoop env fetchChain 0 fetchChain false

/-- The verification outcome of a fetch chain: `Authorized isTransitive` when
the loop runs to its end, `Denied` when the handler returns from inside it. -/
def verify (env : Env) (fetchChain : List Ref) : VerificationOutcome :=
  match (chainWalk env fetchChain).result with
  | some isTransitive => .Authorized isTransitive
  | none => .Denied

/-- The loop over `strings.Split(via, ",")`: every piece is parsed, the first
failure ends it. -/
def parseViaList (env : Env) : List GoString → Option (List Ref)
  | [] => some []
  | vs :: rest =>
    match env.Parse vs with
    | none => none
    | some br =>
      match parseViaList env rest with
      | none => none
      | some brs => some (br :: brs)

/-- The `via` blobs of the request: none for an empty parameter. -/
def parseVia (env : Env) (via : GoString) : Option (List Ref) :=
  if via = [] then some [] else parseViaList env (stringsSplit via 44)

/-- The argument of `time.Sleep` in the deferred function:
`fetchFailureDelay - (time.Now().Sub(startTime))`. -/
def sleepArg (clk : Clock) : Int :=
  wrapInt64 (fetchFailureDelay - timeSub clk.deferTime clk.startTime)

/-- The deferred calls, run last-registered first: the `Close` of every opened
stream, then the function registered first, which sleeps unless
`viaPathOkay` is set. -/
def runDeferred (clk : Clock) (deferred : List Ref) (viaPathOkay : Bool) : List Event :=
  deferred.reverse.map Event.close ++ (if viaPathOkay then [] else [.sleep (sleepArg clk)])

/-- The function `handleGetViaSharing`: its effects in order. -/
def handleGetViaSharing (env : Env) (clk : Clock) (req : Request) (blobRef : Ref) :
    List Event :=
  if !req.IsGet then [.badRequest "Invalid method"]
  else
    match parseVia env req.via with
    | none => .badRequest "Malformed blobref in via param" :: runDeferred clk [] false
    | some viaBlobs =>
      let fetchChain := viaBlobs ++ [blobRef]
      let w := chainWalk env fetchChain
      match w.result with
      | none => w.events ++ runDeferred clk w.deferred false
      | some isTransitive =>
        if parseBool req.assemble then
          if !isTransitive then
            w.events ++ [.sendUnauthorized] ++ runDeferred clk w.deferred false
          else
            w.events ++ [.download blobRef] ++ runDeferred clk w.deferred true
        else
          w.events ++ [.serveBlobRef blobRef] ++ runDeferred clk w.deferred true

/-- The method `shareHandler.ServeHTTP`: its effects in order. -/
def ServeHTTP (env : Env) (clk : Clock) (req : Request) : List Event :=
  match env.Parse (stringsSplitN2Head 47 req.PathSuffix) with
  | none => [.httpError (ascii "Malformed share pathSuffix: " ++ req.PathSuffix) 400]
  | some blobRef => handleGetViaSharing env clk req blobRef

/-- The instant at which the handler can return at the earliest: the reading
taken by the deferred function plus the pause of its `time.Sleep`. -/
def earliestReturn (clk : Clock) : Int :=
  clk.deferTime + sleepPause (sleepArg clk)

/-! ## The conditions of the chain walk, as the specification words them -/

/-- The root conditions: the fetch of `chain[0]` succeeds, its reported size is
not greater than `MaxSchemaBlobSize`, it decodes to the share descriptor
`share`, which is not expired, whose target has the textual form of `chain[1]`
when there is one, and which is transitive when the chain has more than two
elements. -/
def RootPasses (env : Env) (chain : List Ref) (share : Share) : Prop :=
  ∃ root file size blob,
    chain[0]? = some root ∧
    env.FetchStreaming root = .ok (file, size) ∧
    size ≤ env.MaxSchemaBlobSize ∧
    env.BlobFromReader root file = .ok blob ∧
    blob.AsShare = some share ∧
    share.IsExpired = false ∧
    (∀ next, chain[1]? = some next → share.Target.String = next.String) ∧
    (2 < chain.length → share.IsTransitive = true)

/-- The condition at interior position `i`: the fetch of `chain[i]` succeeds, its
bounded read succeeds, and the bytes read contain the textual form of
`chain[i+1]`. -/
def InteriorPasses (env : Env) (chain : List Ref) (i : Nat) : Prop :=
  ∃ br next file size slurpBytes,
    chain[i]? = some br ∧ chain[i + 1]? = some next ∧
    env.FetchStreaming br = .ok (file, size) ∧
    readAllLimit file env.MaxSchemaBlobSize = .ok slurpBytes ∧
    next.String <:+: slurpBytes

/-- All conditions of a chain: the root conditions for the descriptor `share`
and the interior condition at every position strictly between the root and
the last element. -/
def ChainPasses (env : Env) (chain : List Ref) (share : Share) : Prop :=
  RootPasses env chain share ∧
    ∀ i, 0 < i → i + 1 < chain.length → InteriorPasses env chain i

/-! ## Observations on runs -/

/-- Whether an effect is a probe of the store or a log line: `fetch`, `decode`
or `log`. -/
def Event.isQuiet : Event → Bool
  | .fetch _ => true
  | .decode _ => true
  | .log _ => true
  | _ => false

/-- Whether an effect writes a response to the connection. -/
def Event.isResponder : Event → Bool
  | .badRequest _ => true
  | .httpError _ _ => true
  | .sendUnauthorized => true
  | .download _ => true
  | .serveBlobRef _ => true
  | _ => false

/-- The responses of a run, in order. -/
def responders (trace : List Event) : List Event :=
  trace.filter Event.isResponder

/-- The arguments of the calls to `time.Sleep` in a run, in order. -/
def sleeps : List Event → List Int
  | [] => []
  | .sleep d :: rest => d :: sleeps rest
  | _ :: rest => sleeps rest

/-- The time a run spends in `time.Sleep`. -/
def totalSleep (trace : List Event) : Int :=
  ((sleeps trace).map sleepPause).sum

/-- Scan for `sleepBeforeEveryUnauthorized`: `slept` tells whether a call to
`time.Sleep` has been seen. -/
def sleepBeforeAux : Bool → List Event → Bool
  | _, [] => true
  | _, .sleep _ :: rest => sleepBeforeAux true rest
  | slept, .sendUnauthorized :: rest => slept && sleepBeforeAux slept rest
  | slept, _ :: rest => sleepBeforeAux slept rest

/-- Whether every call of `auth.SendUnauthorized` in a run comes after a call
to `time.Sleep`. -/
def sleepBeforeEveryUnauthorized (trace : List Event) : Bool :=
  sleepBeforeAux false trace

/-- The value of `isTransitive` with which the loop arrives at iteration `k`,
`none` when the handler has returned in an earlier iteration. Iterations past
the end of the chain leave the state as it is. -/
def arrive (env : Env) (fetchChain : List Ref) : Nat → Option Bool
  | 0 => some false
  | k + 1 =>
    match arrive env fetchChain k with
    | none => none
    | some t =>
      match fetchChain[k]? with
      | none => some t
      | some br => (hop env fetchChain k br t).result

/-- Whether a run of the loop has the shape of a refusal: probes and log lines
only, then one call of `auth.SendUnauthorized` as its last effect. -/
def deniedShape : List Event → Bool
  | [] => false
  | [e] => e == .sendUnauthorized
  | e :: rest => e.isQuiet && deniedShape rest

/-- The references passed to `FetchStreaming` in a run, in order. -/
def fetches : List Event → List Ref
  | [] => []
  | .fetch br :: rest => br :: fetches rest
  | _ :: rest => fetches rest

/-- The last of the pieces of `s` separated by the byte `sep`. -/
def lastSegment (sep : Byte) (s : GoString) : GoString :=
  (stringsSplit s sep).getLast?.getD []

/-- The first of the pieces of `s` separated by the byte `sep`. -/
def firstSegment (sep : Byte) (s : GoString) : GoString :=
  (stringsSplit s sep).head?.getD []

/-- The number of references the walk over a chain of length `n` can fetch: the
root, and every further element but the last. -/
def fetchBound (n : Nat) : Nat :=
  max 1 (n - 1)

/-! ## Sample store -/

/-- A transitive share blob, with target `refA`. -/
def refS : Ref := ⟨ascii "sha1-5"⟩

/-- An object that mentions `refB`. -/
def refA : Ref := ⟨ascii "sha1-a"⟩

/-- An object that mentions `refC`. -/
def refB : Ref := ⟨ascii "sha1-b"⟩

/-- An object the store does not hold. -/
def refC : Ref := ⟨ascii "sha1-c"⟩

/-- A share blob that is not transitive, with itself as target. -/
def refN : Ref := ⟨ascii "sha1-9"⟩

/-- An expired share blob. -/
def refE : Ref := ⟨ascii "sha1-e"⟩

/-- A share blob whose reported size is one above the ceiling. -/
def refL : Ref := ⟨ascii "sha1-f"⟩

/-- A share blob whose reported size is the ceiling. -/
def refM : Ref := ⟨ascii "sha1-d"⟩

/-- A small store with a size ceiling of 16 bytes. -/
def sampleEnv : Env where
  MaxSchemaBlobSize := 16
  Parse := fun s => if hasPrefix s (ascii "sha1-") then some ⟨s⟩ else none
  FetchStreaming := fun br =>
    if br = refS then .ok (⟨ascii "share->a,T", none⟩, 10)
    else if br = refA then .ok (⟨ascii "see sha1-b", none⟩, 10)
    else if br = refB then .ok (⟨ascii "ref:sha1-c", none⟩, 10)
    else if br = refN then .ok (⟨ascii "share->9", none⟩, 8)
    else if br = refE then .ok (⟨ascii "share->a,T,E", none⟩, 12)
    else if br = refL then .ok (⟨ascii "share->a,T       ", none⟩, 17)
    else if br = refM then .ok (⟨ascii "share->a,T      ", none⟩, 16)
    else .error "blob not found"
  BlobFromReader := fun _ file =>
    if hasPrefix file.data (ascii "share->a,T,E") then .ok ⟨some ⟨refA, true, true⟩⟩
    else if hasPrefix file.data (ascii "share->a,T") then .ok ⟨some ⟨refA, true, false⟩⟩
    else if hasPrefix file.data (ascii "share->9") then .ok ⟨some ⟨refN, false, false⟩⟩
    else .error "not a schema blob"

/-- A GET request for `refC` through `refS` and `refA`: the chain breaks at
`refA`, which does not mention `refC`. -/
def sampleDeniedRequest : Request :=
  ⟨true, ascii "sha1-5,sha1-a", [], ascii "sha1-c"⟩

/-- Clock readings five nanoseconds apart. -/
def sampleClock : Clock := ⟨1000, 1005⟩

/-- A ceiling of 1 MiB. -/
def oneMiB : Nat := 1048576

/-- An object of 1 MiB of spaces followed by the text of `refB`. -/
def longObject : GoString := List.replicate oneMiB 32 ++ refB.String

/-- A store with a size ceiling of 1 MiB in which the share `refS` names `refA`
and `refA` is `longObject`, which mentions `refB` after its first 1 MiB. -/
def ceilingEnv : Env where
  MaxSchemaBlobSize := (oneMiB : Int)
  Parse := sampleEnv.Parse
  FetchStreaming := fun br =>
    if br = refS then .ok (⟨ascii "share->a,T", none⟩, 10)
    else if br = refA then .ok (⟨longObject, none⟩, 1048582)
    else .error "blob not found"
  BlobFromReader := sampleEnv.BlobFromReader

/-- A GET request for `refC` whose via has a second element that is not a
reference. -/
def sampleMalformedViaRequest : Request :=
  ⟨true, ascii "sha1-5,sha-a", [], ascii "sha1-c"⟩

/-- A request with another method than GET. -/
def sampleBadMethodRequest : Request :=
  ⟨false, ascii "sha1-5", [], ascii "sha1-a"⟩

/-- A GET request with no via whose path suffix has two segments, the share
`refN` and then the text of `refC`. -/
def sampleTwoSegmentRequest : Request :=
  ⟨true, [], [], ascii "sha1-9/sha1-c"⟩

/-- A GET request whose path suffix does not start with a reference. -/
def sampleMalformedPathRequest : Request :=
  ⟨true, [], [], ascii "nothing/sha1-a"⟩

/-- A store that holds nothing, with the ceiling of the sample store. -/
def emptyEnv : Env where
  MaxSchemaBlobSize := 16
  Parse := sampleEnv.Parse
  FetchStreaming := fun _ => .error "blob not found"
  BlobFromReader := sampleEnv.BlobFromReader

/-- The sample store with the share `refN` decoded to a descriptor that names
`refC`, not `refN`. -/
def retargetedEnv : Env where
  MaxSchemaBlobSize := 16
  Parse := sampleEnv.Parse
  FetchStreaming := sampleEnv.FetchStreaming
  BlobFromReader := fun _ file =>
    if hasPrefix file.data (ascii "share->9") then .ok ⟨some ⟨refC, false, false⟩⟩
    else .error "not a schema blob"

/-- The sample store with the object `refA` replaced by `content`, reported
with its true length. -/
def storeWithA (content : GoString) : Env where
  MaxSchemaBlobSize := 16
  Parse := sampleEnv.Parse
  FetchStreaming := fun br =>
    if br = refA then .ok (⟨content, none⟩, content.length)
    else sampleEnv.FetchStreaming br
  BlobFromReader := sampleEnv.BlobFromReader

/-- The sample store with the object `refC` added, holding `content`. -/
def storeWithC (content : GoString) : Env where
  MaxSchemaBlobSize := 16
  Parse := sampleEnv.Parse
  FetchStreaming := fun br =>
    if br = refC then .ok (⟨content, none⟩, content.length)
    else sampleEnv.FetchStreaming br
  BlobFromReader := sampleEnv.BlobFromReader

/-! ## Library facts -/

theorem hasPrefix_iff (s sep : GoString) : hasPrefix s sep = true ↔ sep <+: s := by
  induction sep generalizing s with
  | nil => simp [hasPrefix]
  | cons c sep ih =>
    cases s with
    | nil => simp [hasPrefix]
    | cons b s =>
      simp only [hasPrefix, Bool.and_eq_true, beq_iff_eq, ih, List.cons_prefix_cons]
      constructor
      · rintro ⟨h1, h2⟩; exact ⟨h1.symm, h2⟩
      · rintro ⟨h1, h2⟩; exact ⟨h1.symm, h2⟩

theorem bytesIndexFrom_eq_neg_one_iff (sep s : GoString) (i : Nat) :
    bytesIndexFrom sep s i = -1 ↔ ¬ sep <:+: s := by
  induction s generalizing i with
  | nil =>
    unfold bytesIndexFrom
    by_cases h : hasPrefix [] sep = true
    · have h2 : sep <+: [] := (hasPrefix_iff _ _).1 h
      simp only [h, if_true]
      constructor
      · intro h3; omega
      · intro h3; exact absurd h2.isInfix h3
    · simp only [h]
      have h2 : ¬ sep <+: [] := fun hp => h ((hasPrefix_iff _ _).2 hp)
      simp only [List.prefix_nil] at h2
      simp [h2]
  | cons b s ih =>
    unfold bytesIndexFrom
    by_cases h : hasPrefix (b :: s) sep = true
    · have h2 : sep <+: b :: s := (hasPrefix_iff _ _).1 h
      simp only [h, if_true]
      constructor
      · intro h3; omega
      · intro h3; exact absurd h2.isInfix h3
    · have h2 : ¬ sep <+: b :: s := fun hp => h ((hasPrefix_iff _ _).2 hp)
      rw [if_neg h, List.infix_cons_iff]
      simp only [h2, false_or]
      exact ih (i + 1)

theorem bytesIndex_eq_neg_one_iff (s sep : GoString) :
    bytesIndex s sep = -1 ↔ ¬ sep <:+: s :=
  bytesIndexFrom_eq_neg_one_iff sep s 0


theorem targetMismatch_eq_false_iff (chain : List Ref) (share : Share) :
    targetMismatch chain share = false ↔
      ∀ next, chain[1]? = some next → share.Target.String = next.String := by
  rcases chain with _ | ⟨a, _ | ⟨b, rest⟩⟩
  · simp [targetMismatch]
  · simp [targetMismatch]
  · simp only [targetMismatch, bne_eq_false_iff_eq, List.getElem?_cons_succ,
      List.getElem?_cons_zero, Option.some.injEq]
    constructor
    · rintro h next rfl; exact h.symm
    · intro h; exact (h b rfl).symm

theorem rootHop_result (env : Env) (chain : List Ref) (br : Ref) (b : Bool) :
    (rootHop env chain br).result = some b ↔
      ∃ file size blob share,
        env.FetchStreaming br = .ok (file, size) ∧
        size ≤ env.MaxSchemaBlobSize ∧
        env.BlobFromReader br file = .ok blob ∧
        blob.AsShare = some share ∧
        share.IsExpired = false ∧
        targetMismatch chain share = false ∧
        (2 < chain.length → share.IsTransitive = true) ∧
        b = share.IsTransitive := by
  unfold rootHop
  cases hf : env.FetchStreaming br with
  | error err => simp
  | ok p =>
    obtain ⟨file, size⟩ := p
    by_cases hs : size > env.MaxSchemaBlobSize
    · simp only [hs, if_true]
      constructor
      · intro h; cases h
      · rintro ⟨f, sz, blob, share, h1, h2, _⟩
        cases h1; omega
    · simp only [hs, if_false]
      cases hd : env.BlobFromReader br file with
      | error err =>
        dsimp only
        constructor
        · intro h; cases h
        · rintro ⟨f, sz, blob, share, h1, h2, h3, _⟩
          cases h1; rw [hd] at h3; cases h3
      | ok blob =>
        dsimp only
        cases hsh : blob.AsShare with
        | none =>
          dsimp only
          constructor
          · intro h; cases h
          · rintro ⟨f, sz, blob2, share, h1, h2, h3, h4, _⟩
            cases h1; rw [hd] at h3; cases h3; rw [hsh] at h4; cases h4
        | some share =>
          dsimp only
          constructor
          · intro h
            refine ⟨file, size, blob, share, rfl, by omega, hd, hsh, ?_⟩
            by_cases he : share.IsExpired = true
            · simp [he] at h
            · by_cases hm : targetMismatch chain share = true
              · simp [he, hm] at h
              · by_cases ht : (chain.length > 2 && !share.IsTransitive) = true
                · simp [he, hm, ht] at h
                · simp only [he, hm, ht] at h
                  simp only [Bool.false_eq_true, if_false, Option.some.injEq] at h
                  simp only [Bool.and_eq_true, decide_eq_true_eq, Bool.not_eq_true',
                    not_and, Bool.not_eq_false] at ht
                  refine ⟨by simpa using he, by simpa using hm, ?_, h.symm⟩
                  intro h2; exact ht h2
          · rintro ⟨f, sz, blob2, share2, h1, h2, h3, h4, h5, h6, h7, h8⟩
            cases h1; rw [hd] at h3; cases h3; rw [hsh] at h4; cases h4
            have ht : (chain.length > 2 && !share.IsTransitive) = false := by
              by_cases hl : 2 < chain.length
              · simp [h7 hl]
              · simp [hl]
            simp [h5, h6, ht, h8]

theorem interiorHop_result (env : Env) (chain : List Ref) (i : Nat) (br : Ref) (t b : Bool) :
    (interiorHop env chain i br t).result = some b ↔
      b = t ∧ ∃ file size slurpBytes,
        env.FetchStreaming br = .ok (file, size) ∧
        readAllLimit file env.MaxSchemaBlobSize = .ok slurpBytes ∧
        (chain.getD (i + 1) br).String <:+: slurpBytes := by
  unfold interiorHop
  cases hf : env.FetchStreaming br with
  | error err => simp
  | ok p =>
    obtain ⟨file, size⟩ := p
    dsimp only
    cases hr : readAllLimit file env.MaxSchemaBlobSize with
    | error err =>
      dsimp only
      constructor
      · intro h; cases h
      · rintro ⟨_, f, sz, sl, h1, h2, _⟩
        cases h1; rw [hr] at h2; cases h2
    | ok slurpBytes =>
      dsimp only
      by_cases hi : bytesIndex slurpBytes (chain.getD (i + 1) br).String = -1
      · rw [if_pos hi]
        constructor
        · intro h; cases h
        · rintro ⟨_, f, sz, sl, h1, h2, h3⟩
          cases h1; rw [hr] at h2; cases h2
          exact absurd h3 ((bytesIndex_eq_neg_one_iff _ _).1 hi)
      · rw [if_neg hi]
        have hin : (chain.getD (i + 1) br).String <:+: slurpBytes := by
          by_contra hc
          exact hi ((bytesIndex_eq_neg_one_iff _ _).2 hc)
        constructor
        · intro h
          simp only [Option.some.injEq] at h
          exact ⟨h.symm, file, size, slurpBytes, rfl, hr, hin⟩
        · rintro ⟨h, _⟩
          simp [h]

theorem walkLoop_cons_result (env : Env) (chain : List Ref) (i : Nat) (br : Ref)
    (rest : List Ref) (t b : Bool) :
    (walkLoop env chain i (br :: rest) t).result = some b ↔
      ∃ u, (hop env chain i br t).result = some u ∧
        (walkLoop env chain (i + 1) rest u).result = some b := by
  rw [walkLoop]
  cases h : (hop env chain i br t).result with
  | none => simp [h]
  | some u => simp

theorem walkLoop_nil_result (env : Env) (chain : List Ref) (i : Nat) (t b : Bool) :
    (walkLoop env chain i [] t).result = some b ↔ b = t := by
  simp [walkLoop, eq_comm]

theorem walkLoop_interior_result (env : Env) (chain : List Ref) (b : Bool) :
    ∀ (rest : List Ref) (i : Nat) (t : Bool), 0 < i → chain.drop i = rest →
      ((walkLoop env chain i rest t).result = some b ↔
        b = t ∧ ∀ j, i ≤ j → j + 1 < chain.length → InteriorPasses env chain j) := by
  intro rest
  induction rest with
  | nil =>
    intro i t _ hdrop
    rw [walkLoop_nil_result]
    have hlen : chain.length ≤ i := List.drop_eq_nil_iff.1 hdrop
    constructor
    · intro h; exact ⟨h, fun j h1 h2 => by omega⟩
    · intro h; exact h.1
  | cons br rest ih =>
    intro i t hi hdrop
    have hilt : i < chain.length := by
      by_contra hc
      have : chain.drop i = [] := List.drop_eq_nil_iff.2 (by omega)
      rw [this] at hdrop; cases hdrop
    have hbr : chain[i]? = some br := by
      have h1 : (chain.drop i)[0]? = some br := by rw [hdrop]; simp
      simpa [List.getElem?_drop] using h1
    have hrest : chain.drop (i + 1) = rest := by
      have h1 : (chain.drop i).drop 1 = rest := by rw [hdrop]; rfl
      rw [List.drop_drop] at h1
      rw [← h1, Nat.add_comm]
    rw [walkLoop_cons_result]
    have ih2 := ih (i + 1)
    by_cases hlast : i = chain.length - 1
    · have hrnil : rest = [] := by
        rw [← hrest]; exact List.drop_eq_nil_iff.2 (by omega)
      subst hrnil
      have hhop : ∀ u, (hop env chain i br t).result = some u ↔ u = t := by
        intro u
        unfold hop
        rw [if_neg (by omega), if_pos hlast]
        simp [eq_comm]
      constructor
      · rintro ⟨u, h1, h2⟩
        rw [walkLoop_nil_result] at h2
        rw [hhop] at h1
        exact ⟨by rw [h2, h1], fun j h3 h4 => by omega⟩
      · rintro ⟨h1, _⟩
        exact ⟨t, (hhop t).2 rfl, (walkLoop_nil_result _ _ _ _ _).2 h1⟩
    · have hnext : i + 1 < chain.length := by omega
      have hhop : ∀ u, (hop env chain i br t).result = some u ↔
          u = t ∧ InteriorPasses env chain i := by
        intro u
        unfold hop
        rw [if_neg (by omega), if_neg hlast, interiorHop_result]
        have hget : chain.getD (i + 1) br = chain[i + 1] := by
          simp [List.getD_eq_getElem?_getD, List.getElem?_eq_getElem hnext]
        rw [hget]
        unfold InteriorPasses
        constructor
        · rintro ⟨h1, file, size, sl, h2, h3, h4⟩
          exact ⟨h1, br, chain[i + 1], file, size, sl, hbr,
            List.getElem?_eq_getElem hnext, h2, h3, h4⟩
        · rintro ⟨h1, br2, next, file, size, sl, h2, h3, h4, h5, h6⟩
          rw [hbr] at h2; cases h2
          rw [List.getElem?_eq_getElem hnext] at h3; cases h3
          exact ⟨h1, file, size, sl, h4, h5, h6⟩
      constructor
      · rintro ⟨u, h1, h2⟩
        rw [hhop] at h1
        rw [ih2 u (by omega) hrest] at h2
        refine ⟨by rw [h2.1, h1.1], fun j h3 h4 => ?_⟩
        by_cases hj : j = i
        · subst hj; exact h1.2
        · exact h2.2 j (by omega) h4
      · rintro ⟨h1, h2⟩
        refine ⟨t, (hhop t).2 ⟨rfl, h2 i (le_refl _) hnext⟩, ?_⟩
        rw [ih2 t (by omega) hrest]
        exact ⟨h1, fun j h3 h4 => h2 j (by omega) h4⟩

theorem verify_authorized_iff (env : Env) (chain : List Ref) (b : Bool) :
    verify env chain = .Authorized b ↔ (chainWalk env chain).result = some b := by
  unfold verify
  cases (chainWalk env chain).result <;> simp

theorem verify_denied_iff (env : Env) (chain : List Ref) :
    verify env chain = .Denied ↔ (chainWalk env chain).result = none := by
  unfold verify
  cases (chainWalk env chain).result <;> simp

theorem chainWalk_result (env : Env) (chain : List Ref) (hn : 1 ≤ chain.length) (b : Bool) :
    (chainWalk env chain).result = some b ↔
      ∃ share, ChainPasses env chain share ∧ b = share.IsTransitive := by
  obtain ⟨root, rest, rfl⟩ : ∃ root rest, chain = root :: rest := by
    cases chain with
    | nil => simp at hn
    | cons a l => exact ⟨a, l, rfl⟩
  unfold chainWalk
  rw [walkLoop_cons_result]
  have hhop : ∀ u, hop env (root :: rest) 0 root u = rootHop env (root :: rest) root := by
    intro u; simp [hop]
  simp only [hhop, rootHop_result, targetMismatch_eq_false_iff,
    walkLoop_interior_result env (root :: rest) b rest 1 _ (by omega) rfl]
  unfold ChainPasses RootPasses
  constructor
  · rintro ⟨u, ⟨file, size, blob, share, h1, h2, h3, h4, h5, h6, h7, h8⟩, h9, h10⟩
    refine ⟨share, ⟨⟨root, file, size, blob, by simp, h1, h2, h3, h4, h5, h6, h7⟩, ?_⟩, ?_⟩
    · intro i hi hlt; exact h10 i (by omega) hlt
    · rw [h9, h8]
  · rintro ⟨share, ⟨⟨root2, file, size, blob, h0, h1, h2, h3, h4, h5, h6, h7⟩, h10⟩, h8⟩
    simp only [List.getElem?_cons_zero, Option.some.injEq] at h0
    subst h0
    exact ⟨share.IsTransitive, ⟨file, size, blob, share, h1, h2, h3, h4, h5, h6, h7, rfl⟩,
      h8, fun j hj hlt => h10 j (by omega) hlt⟩

/-- C1: for every fetch chain of length at least one and every store, the chain
walk of `handleGetViaSharing` is `Authorized b` exactly when all root conditions
and all interior conditions hold for a share descriptor whose transitive flag
is `b`; when the conditions hold for no descriptor the outcome is `Denied`. -/
theorem C1_authorized_iff_chain_passes (env : Env) (chain : List Ref)
    (hn : 1 ≤ chain.length) :
    (∀ b, verify env chain = .Authorized b ↔
        ∃ share, ChainPasses env chain share ∧ b = share.IsTransitive) ∧
      ((¬ ∃ share, ChainPasses env chain share) → verify env chain = .Denied) := by
  refine ⟨fun b => ?_, fun hno => ?_⟩
  · rw [verify_authorized_iff, chainWalk_result env chain hn]
  · rw [verify_denied_iff]
    cases hres : (chainWalk env chain).result with
    | none => rfl
    | some b =>
      obtain ⟨share, hp, _⟩ := (chainWalk_result env chain hn b).1 hres
      exact absurd ⟨share, hp⟩ hno

theorem hop_shape (env : Env) (chain : List Ref) (i : Nat) (br : Ref) (t : Bool) :
    (∀ u, (hop env chain i br t).result = some u →
        (hop env chain i br t).events.all Event.isQuiet = true) ∧
      ((hop env chain i br t).result = none →
        deniedShape (hop env chain i br t).events = true) := by
  unfold hop rootHop interiorHop
  repeat' split
  all_goals first
    | (simp [deniedShape, Event.isQuiet]; done)
    | (dsimp only; split_ifs <;> simp [deniedShape, Event.isQuiet])

theorem deniedShape_append (xs ys : List Event) (hx : xs.all Event.isQuiet = true)
    (hy : deniedShape ys = true) : deniedShape (xs ++ ys) = true := by
  induction xs with
  | nil => simpa using hy
  | cons x xs ih =>
    have hx1 : x.isQuiet = true := by simp at hx; exact hx.1
    have hx2 : xs.all Event.isQuiet = true := by simp at hx ⊢; exact hx.2
    have ih2 := ih hx2
    cases hxy : xs ++ ys with
    | nil => rw [hxy] at ih2; simp [deniedShape] at ih2
    | cons z zs =>
      rw [List.cons_append, hxy]
      rw [hxy] at ih2
      simp [deniedShape, hx1, ih2]

theorem deniedShape_split (tr : List Event) (h : deniedShape tr = true) :
    ∃ pre, tr = pre ++ [.sendUnauthorized] ∧ pre.all Event.isQuiet = true := by
  induction tr with
  | nil => simp [deniedShape] at h
  | cons e rest ih =>
    cases rest with
    | nil =>
      simp only [deniedShape, beq_iff_eq] at h
      exact ⟨[], by simp [h], rfl⟩
    | cons z zs =>
      simp only [deniedShape, Bool.and_eq_true] at h
      obtain ⟨pre, h1, h2⟩ := ih h.2
      exact ⟨e :: pre, by rw [h1]; rfl, by simp [h.1]; simpa using h2⟩

theorem walkLoop_shape (env : Env) (chain : List Ref) :
    ∀ (rest : List Ref) (i : Nat) (t : Bool),
      (∀ u, (walkLoop env chain i rest t).result = some u →
          (walkLoop env chain i rest t).events.all Event.isQuiet = true) ∧
        ((walkLoop env chain i rest t).result = none →
          deniedShape (walkLoop env chain i rest t).events = true) := by
  intro rest
  induction rest with
  | nil => intro i t; simp [walkLoop]
  | cons br rest ih =>
    intro i t
    have hh := hop_shape env chain i br t
    rw [walkLoop]
    cases hr : (hop env chain i br t).result with
    | none =>
      dsimp only
      refine ⟨fun u hu => ?_, fun _ => hh.2 hr⟩
      rw [hr] at hu; cases hu
    | some u =>
      dsimp only
      have hq := hh.1 u hr
      have ih2 := ih (i + 1) u
      refine ⟨fun v hv => ?_, fun hn => ?_⟩
      · rw [List.all_append, hq, ih2.1 v hv]; rfl
      · exact deniedShape_append _ _ hq (ih2.2 hn)

/-! ## Runs of the handler -/

theorem responders_of_quiet (xs : List Event) (h : xs.all Event.isQuiet = true) :
    responders xs = [] := by
  induction xs with
  | nil => rfl
  | cons x xs ih =>
    simp only [List.all_cons, Bool.and_eq_true] at h
    have hx : x.isResponder = false := by
      cases x <;> simp_all [Event.isQuiet, Event.isResponder]
    simp only [responders, List.filter_cons, hx] at ih ⊢
    exact ih h.2

theorem sleeps_of_quiet (xs : List Event) (h : xs.all Event.isQuiet = true) :
    sleeps xs = [] := by
  induction xs with
  | nil => rfl
  | cons x xs ih =>
    simp only [List.all_cons, Bool.and_eq_true] at h
    cases x <;> simp_all [Event.isQuiet, sleeps]

theorem sleeps_append (xs ys : List Event) : sleeps (xs ++ ys) = sleeps xs ++ sleeps ys := by
  induction xs with
  | nil => rfl
  | cons x xs ih => cases x <;> simp [sleeps, ih]

theorem responders_append (xs ys : List Event) :
    responders (xs ++ ys) = responders xs ++ responders ys := by
  simp [responders]

theorem responders_closes (refs : List Ref) : responders (refs.map Event.close) = [] := by
  induction refs with
  | nil => rfl
  | cons r rs ih => simp [responders, Event.isResponder]

theorem sleeps_closes (refs : List Ref) : sleeps (refs.map Event.close) = [] := by
  induction refs with
  | nil => rfl
  | cons r rs ih => simpa [sleeps] using ih

theorem responders_runDeferred (clk : Clock) (refs : List Ref) (ok : Bool) :
    responders (runDeferred clk refs ok) = [] := by
  unfold runDeferred
  rw [responders_append, responders_closes]
  cases ok <;> simp [responders, Event.isResponder]

theorem sleeps_runDeferred (clk : Clock) (refs : List Ref) (ok : Bool) :
    sleeps (runDeferred clk refs ok) = if ok then [] else [sleepArg clk] := by
  unfold runDeferred
  rw [sleeps_append, sleeps_closes]
  cases ok <;> simp [sleeps]

theorem chainWalk_shape (env : Env) (chain : List Ref) :
    (∀ u, (chainWalk env chain).result = some u →
        (chainWalk env chain).events.all Event.isQuiet = true) ∧
      ((chainWalk env chain).result = none →
        ∃ pre, (chainWalk env chain).events = pre ++ [.sendUnauthorized] ∧
          pre.all Event.isQuiet = true) := by
  have h := walkLoop_shape env chain chain 0 false
  exact ⟨h.1, fun hn => deniedShape_split _ (h.2 hn)⟩

theorem handle_of_denied (env : Env) (clk : Clock) (req : Request) (blobRef : Ref)
    (via : List Ref) (hget : req.IsGet = true) (hvia : parseVia env req.via = some via)
    (hden : verify env (via ++ [blobRef]) = .Denied) :
    handleGetViaSharing env clk req blobRef =
      (chainWalk env (via ++ [blobRef])).events ++
        runDeferred clk (chainWalk env (via ++ [blobRef])).deferred false := by
  rw [verify_denied_iff] at hden
  simp [handleGetViaSharing, hget, hvia, hden]

theorem handle_of_authorized (env : Env) (clk : Clock) (req : Request) (blobRef : Ref)
    (via : List Ref) (b : Bool) (hget : req.IsGet = true)
    (hvia : parseVia env req.via = some via)
    (hauth : verify env (via ++ [blobRef]) = .Authorized b) :
    handleGetViaSharing env clk req blobRef =
      if parseBool req.assemble then
        if !b then
          (chainWalk env (via ++ [blobRef])).events ++ [.sendUnauthorized] ++
            runDeferred clk (chainWalk env (via ++ [blobRef])).deferred false
        else
          (chainWalk env (via ++ [blobRef])).events ++ [.download blobRef] ++
            runDeferred clk (chainWalk env (via ++ [blobRef])).deferred true
      else
        (chainWalk env (via ++ [blobRef])).events ++ [.serveBlobRef blobRef] ++
          runDeferred clk (chainWalk env (via ++ [blobRef])).deferred true := by
  rw [verify_authorized_iff] at hauth
  simp [handleGetViaSharing, hget, hvia, hauth]

theorem responders_of_denied (env : Env) (clk : Clock) (req : Request) (blobRef : Ref)
    (via : List Ref) (hget : req.IsGet = true) (hvia : parseVia env req.via = some via)
    (hden : verify env (via ++ [blobRef]) = .Denied) :
    responders (handleGetViaSharing env clk req blobRef) = [.sendUnauthorized] := by
  rw [handle_of_denied env clk req blobRef via hget hvia hden]
  obtain ⟨pre, h1, h2⟩ := (chainWalk_shape env (via ++ [blobRef])).2
    ((verify_denied_iff _ _).1 hden)
  rw [h1, responders_append, responders_append, responders_runDeferred,
    responders_of_quiet pre h2]
  rfl

theorem verify_denied_of_no_root (env : Env) (chain : List Ref) (root : Ref)
    (h0 : chain[0]? = some root)
    (hno : ∀ b, (rootHop env chain root).result ≠ some b) :
    verify env chain = .Denied := by
  obtain ⟨rest, rfl⟩ : ∃ rest, chain = root :: rest := by
    cases chain with
    | nil => simp at h0
    | cons a l => simp at h0; exact ⟨l, by rw [h0]⟩
  rw [verify_denied_iff]
  cases hres : (chainWalk env (root :: rest)).result with
  | none => rfl
  | some b =>
    unfold chainWalk at hres
    rw [walkLoop_cons_result] at hres
    obtain ⟨u, h1, _⟩ := hres
    have : hop env (root :: rest) 0 root false = rootHop env (root :: rest) root := by
      simp [hop]
    rw [this] at h1
    exact absurd h1 (hno u)

/-! ## Claims -/

/-- C2: for every chain with at least two elements, if the target of the root
descriptor differs from the second chain element, the request is denied,
whatever the later hops contain and whether or not the descriptor is
transitive: the walk is `Denied` and each request with this chain gets the
unauthorized response only. -/
theorem C2_target_mismatch_denied (env : Env) (chain : List Ref) (root next : Ref)
    (file : File) (size : Int) (blob : SchemaBlob) (share : Share)
    (h0 : chain[0]? = some root) (h1 : chain[1]? = some next)
    (hf : env.FetchStreaming root = .ok (file, size))
    (hd : env.BlobFromReader root file = .ok blob)
    (hs : blob.AsShare = some share)
    (hne : share.Target.String ≠ next.String) :
    verify env chain = .Denied ∧
      ∀ (clk : Clock) (req : Request) (via : List Ref) (blobRef : Ref),
        req.IsGet = true → parseVia env req.via = some via → via ++ [blobRef] = chain →
          responders (handleGetViaSharing env clk req blobRef) = [.sendUnauthorized] := by
  have hden : verify env chain = .Denied := by
    apply verify_denied_of_no_root env chain root h0
    intro b hb
    rw [rootHop_result] at hb
    obtain ⟨f, sz, bl, sh, e1, _, e3, e4, _, e6, _⟩ := hb
    rw [hf] at e1; cases e1
    rw [hd] at e3; cases e3
    rw [hs] at e4; cases e4
    exact hne ((targetMismatch_eq_false_iff chain share).1 e6 next h1)
  refine ⟨hden, ?_⟩
  intro clk req via blobRef hget hvia hch
  subst hch
  exact responders_of_denied env clk req blobRef via hget hvia hden

/-- Witness of C2: the chain `refS, refB` in the sample store, where the share
`refS` names `refA`. -/
theorem C2_target_mismatch_denied_witness :
    verify sampleEnv [refS, refB] = .Denied ∧
      responders (handleGetViaSharing sampleEnv sampleClock
        ⟨true, ascii "sha1-5", [], ascii "sha1-b"⟩ refB) = [.sendUnauthorized] :=
  have h := C2_target_mismatch_denied sampleEnv [refS, refB] refS refB
    ⟨ascii "share->a,T", none⟩ 10 ⟨some ⟨refA, true, false⟩⟩ ⟨refA, true, false⟩
    (by decide) (by decide) rfl rfl rfl (by decide)
  ⟨h.1, h.2 sampleClock ⟨true, ascii "sha1-5", [], ascii "sha1-b"⟩ [refS] refB
    (by decide) (by decide) (by decide)⟩

/-- C3: for every chain of more than two elements whose root descriptor is not
transitive, the request is denied, whatever the target of the descriptor and
the contents of the interior objects. -/
theorem C3_not_transitive_denied (env : Env) (chain : List Ref) (root : Ref)
    (file : File) (size : Int) (blob : SchemaBlob) (share : Share)
    (hlen : 2 < chain.length) (h0 : chain[0]? = some root)
    (hf : env.FetchStreaming root = .ok (file, size))
    (hd : env.BlobFromReader root file = .ok blob)
    (hs : blob.AsShare = some share)
    (hnt : share.IsTransitive = false) :
    verify env chain = .Denied ∧
      ∀ (clk : Clock) (req : Request) (via : List Ref) (blobRef : Ref),
        req.IsGet = true → parseVia env req.via = some via → via ++ [blobRef] = chain →
          responders (handleGetViaSharing env clk req blobRef) = [.sendUnauthorized] := by
  have hden : verify env chain = .Denied := by
    apply verify_denied_of_no_root env chain root h0
    intro b hb
    rw [rootHop_result] at hb
    obtain ⟨f, sz, bl, sh, e1, _, e3, e4, _, _, e7, _⟩ := hb
    rw [hf] at e1; cases e1
    rw [hd] at e3; cases e3
    rw [hs] at e4; cases e4
    rw [e7 hlen] at hnt; cases hnt
  refine ⟨hden, ?_⟩
  intro clk req via blobRef hget hvia hch
  subst hch
  exact responders_of_denied env clk req blobRef via hget hvia hden

/-- Witness of C3: the chain `refN, refN, refA, refB` in the sample store; the
share `refN` is not transitive, names `refN`, and `refA` mentions `refB`. -/
theorem C3_not_transitive_denied_witness :
    verify sampleEnv [refN, refN, refA, refB] = .Denied ∧
      responders (handleGetViaSharing sampleEnv sampleClock
        ⟨true, ascii "sha1-9,sha1-9,sha1-a", [], ascii "sha1-b"⟩ refB) =
        [.sendUnauthorized] :=
  have h := C3_not_transitive_denied sampleEnv [refN, refN, refA, refB] refN
    ⟨ascii "share->9", none⟩ 8 ⟨some ⟨refN, false, false⟩⟩ ⟨refN, false, false⟩
    (by decide) (by decide) rfl rfl rfl rfl
  ⟨h.1, h.2 sampleClock ⟨true, ascii "sha1-9,sha1-9,sha1-a", [], ascii "sha1-b"⟩
    [refN, refN, refA] refB (by decide) (by decide) (by decide)⟩

/-- C4: for every chain, of any length, whose root object decodes to an expired
share descriptor, the request is denied, whatever the target and transitivity
of the descriptor and the contents of the other hops. -/
theorem C4_expired_denied (env : Env) (chain : List Ref) (root : Ref)
    (file : File) (size : Int) (blob : SchemaBlob) (share : Share)
    (h0 : chain[0]? = some root)
    (hf : env.FetchStreaming root = .ok (file, size))
    (hd : env.BlobFromReader root file = .ok blob)
    (hs : blob.AsShare = some share)
    (hexp : share.IsExpired = true) :
    verify env chain = .Denied ∧
      ∀ (clk : Clock) (req : Request) (via : List Ref) (blobRef : Ref),
        req.IsGet = true → parseVia env req.via = some via → via ++ [blobRef] = chain →
          responders (handleGetViaSharing env clk req blobRef) = [.sendUnauthorized] := by
  have hden : verify env chain = .Denied := by
    apply verify_denied_of_no_root env chain root h0
    intro b hb
    rw [rootHop_result] at hb
    obtain ⟨f, sz, bl, sh, e1, _, e3, e4, e5, _⟩ := hb
    rw [hf] at e1; cases e1
    rw [hd] at e3; cases e3
    rw [hs] at e4; cases e4
    rw [e5] at hexp; cases hexp
  refine ⟨hden, ?_⟩
  intro clk req via blobRef hget hvia hch
  subst hch
  exact responders_of_denied env clk req blobRef via hget hvia hden

/-- Witness of C4: the chain `refE, refA` in the sample store; the share `refE`
is expired, transitive and names `refA`. -/
theorem C4_expired_denied_witness :
    verify sampleEnv [refE, refA] = .Denied ∧
      responders (handleGetViaSharing sampleEnv sampleClock
        ⟨true, ascii "sha1-e", [], ascii "sha1-a"⟩ refA) = [.sendUnauthorized] :=
  have h := C4_expired_denied sampleEnv [refE, refA] refE
    ⟨ascii "share->a,T,E", none⟩ 12 ⟨some ⟨refA, true, true⟩⟩ ⟨refA, true, true⟩
    (by decide) rfl rfl rfl rfl
  ⟨h.1, h.2 sampleClock ⟨true, ascii "sha1-e", [], ascii "sha1-a"⟩ [refE] refA
    (by decide) (by decide) (by decide)⟩

theorem chainWalk_cons (env : Env) (root : Ref) (rest : List Ref) :
    chainWalk env (root :: rest) =
      match (rootHop env (root :: rest) root).result with
      | none => rootHop env (root :: rest) root
      | some t =>
        ⟨(rootHop env (root :: rest) root).events ++
            (walkLoop env (root :: rest) 1 rest t).events,
          (rootHop env (root :: rest) root).deferred ++
            (walkLoop env (root :: rest) 1 rest t).deferred,
          (walkLoop env (root :: rest) 1 rest t).result⟩ := by
  unfold chainWalk
  rw [walkLoop]
  simp [hop]

theorem chain_eq_cons_of_head (chain : List Ref) (root : Ref) (h0 : chain[0]? = some root) :
    ∃ rest, chain = root :: rest := by
  cases chain with
  | nil => simp at h0
  | cons a l => simp at h0; exact ⟨l, by rw [h0]⟩

theorem walkLoop_no_too_large (env : Env) (chain : List Ref) :
    ∀ (rest : List Ref) (i : Nat) (t : Bool), 0 < i →
      ∀ s, Event.log (.fetchChain0TooLarge s) ∉ (walkLoop env chain i rest t).events := by
  intro rest
  induction rest with
  | nil => intro i t _ s; simp [walkLoop]
  | cons br rest ih =>
    intro i t hi s
    have hhop : Event.log (.fetchChain0TooLarge s) ∉ (hop env chain i br t).events := by
      unfold hop interiorHop
      rw [if_neg (by omega)]
      repeat' split
      all_goals first
        | (simp; done)
        | (dsimp only; split_ifs <;> simp)
    rw [walkLoop]
    cases hr : (hop env chain i br t).result with
    | none => exact hhop
    | some u =>
      dsimp only
      rw [List.mem_append]
      rintro (h | h)
      · exact hhop h
      · exact ih (i + 1) u (by omega) s h

theorem chainWalk_events_start (env : Env) (chain : List Ref) (root : Ref)
    (h0 : chain[0]? = some root) :
    ∃ tail, (chainWalk env chain).events = (rootHop env chain root).events ++ tail ∧
      ∀ s, Event.log (.fetchChain0TooLarge s) ∉ tail := by
  obtain ⟨rest, rfl⟩ := chain_eq_cons_of_head chain root h0
  rw [chainWalk_cons]
  cases (rootHop env (root :: rest) root).result with
  | none => exact ⟨[], by simp, by simp⟩
  | some t => exact ⟨_, rfl, walkLoop_no_too_large env _ rest 1 t (by omega)⟩

theorem chainWalk_of_root_none (env : Env) (chain : List Ref) (root : Ref)
    (h0 : chain[0]? = some root) (hn : (rootHop env chain root).result = none) :
    chainWalk env chain = rootHop env chain root := by
  obtain ⟨rest, rfl⟩ := chain_eq_cons_of_head chain root h0
  rw [chainWalk_cons, hn]

theorem rootHop_too_large (env : Env) (chain : List Ref) (root : Ref) (file : File)
    (size : Int) (hf : env.FetchStreaming root = .ok (file, size))
    (hbig : env.MaxSchemaBlobSize < size) :
    rootHop env chain root =
      ⟨[.fetch root, .log (.fetchChain0TooLarge root.String), .sendUnauthorized],
        [root], none⟩ := by
  unfold rootHop
  rw [hf]
  simp [hbig]

theorem rootHop_decodes (env : Env) (chain : List Ref) (root : Ref) (file : File)
    (size : Int) (hf : env.FetchStreaming root = .ok (file, size))
    (hle : size ≤ env.MaxSchemaBlobSize) :
    ∃ tail, (rootHop env chain root).events = .fetch root :: .decode root :: tail ∧
      ∀ s, Event.log (.fetchChain0TooLarge s) ∉ tail := by
  unfold rootHop
  rw [hf]
  have hs : ¬ size > env.MaxSchemaBlobSize := by omega
  simp only [hs, if_false]
  repeat' split
  all_goals simp [hopUnauthorizedLog]

/-- C5: for every chain whose root fetch reports a size strictly greater than
`MaxSchemaBlobSize`, the request is denied and the decoder is not invoked (the
run is the fetch, the log line, the unauthorized response, the close and the
sleep); a root whose size equals `MaxSchemaBlobSize` is not rejected by the
size check: the decoder is invoked on it right after the fetch and the run has
no "too large" log line. -/
theorem C5_oversized_root (env : Env) (chain : List Ref) (root : Ref) (file : File)
    (size : Int) (h0 : chain[0]? = some root)
    (hf : env.FetchStreaming root = .ok (file, size)) :
    (env.MaxSchemaBlobSize < size →
        verify env chain = .Denied ∧
        (∀ br, Event.decode br ∉ (chainWalk env chain).events) ∧
        ∀ (clk : Clock) (req : Request) (via : List Ref) (blobRef : Ref),
          req.IsGet = true → parseVia env req.via = some via → via ++ [blobRef] = chain →
            handleGetViaSharing env clk req blobRef =
              [.fetch root, .log (.fetchChain0TooLarge root.String), .sendUnauthorized,
                .close root, .sleep (sleepArg clk)]) ∧
      (size = env.MaxSchemaBlobSize →
        ∃ tail, (chainWalk env chain).events = .fetch root :: .decode root :: tail ∧
          ∀ s, Event.log (.fetchChain0TooLarge s) ∉ tail) := by
  constructor
  · intro hbig
    have hroot := rootHop_too_large env chain root file size hf hbig
    have hwalk : chainWalk env chain = rootHop env chain root :=
      chainWalk_of_root_none env chain root h0 (by rw [hroot])
    have hden : verify env chain = .Denied := by
      rw [verify_denied_iff, hwalk, hroot]
    refine ⟨hden, ?_, ?_⟩
    · intro br
      rw [hwalk, hroot]
      simp
    · intro clk req via blobRef hget hvia hch
      subst hch
      rw [handle_of_denied env clk req blobRef via hget hvia hden, hwalk, hroot]
      simp [runDeferred]
  · intro heq
    obtain ⟨tail, h1, h2⟩ := rootHop_decodes env chain root file size hf (by omega)
    obtain ⟨tail2, h3, h4⟩ := chainWalk_events_start env chain root h0
    refine ⟨tail ++ tail2, by rw [h3, h1]; rfl, ?_⟩
    intro s hmem
    rcases List.mem_append.1 hmem with h | h
    · exact h2 s h
    · exact h4 s h

/-- Witness of C5: in the sample store, whose ceiling is 16, the root `refL`
reports 17 bytes and the root `refM` reports 16. -/
theorem C5_oversized_root_witness :
    handleGetViaSharing sampleEnv sampleClock ⟨true, ascii "sha1-f", [], ascii "sha1-a"⟩ refA =
        [.fetch refL, .log (.fetchChain0TooLarge refL.String), .sendUnauthorized,
          .close refL, .sleep (sleepArg sampleClock)] ∧
      ∃ tail, (chainWalk sampleEnv [refM, refA]).events = .fetch refM :: .decode refM :: tail ∧
        ∀ s, Event.log (.fetchChain0TooLarge s) ∉ tail :=
  ⟨((C5_oversized_root sampleEnv [refL, refA] refL ⟨ascii "share->a,T       ", none⟩ 17
      (by decide) rfl).1 (by decide)).2.2 sampleClock
      ⟨true, ascii "sha1-f", [], ascii "sha1-a"⟩ [refL] refA (by decide) (by decide)
      (by decide),
    (C5_oversized_root sampleEnv [refM, refA] refM ⟨ascii "share->a,T      ", none⟩ 16
      (by decide) rfl).2 (by decide)⟩

theorem responders_cons (e : Event) (xs : List Event) :
    responders (e :: xs) = if e.isResponder then e :: responders xs else responders xs := by
  simp [responders, List.filter_cons]

theorem responders_of_authorized (env : Env) (clk : Clock) (req : Request) (blobRef : Ref)
    (via : List Ref) (b : Bool) (hget : req.IsGet = true)
    (hvia : parseVia env req.via = some via)
    (hauth : verify env (via ++ [blobRef]) = .Authorized b) :
    responders (handleGetViaSharing env clk req blobRef) =
      if parseBool req.assemble then
        if !b then [.sendUnauthorized] else [.download blobRef]
      else [.serveBlobRef blobRef] := by
  rw [handle_of_authorized env clk req blobRef via b hget hvia hauth]
  have hq := (chainWalk_shape env (via ++ [blobRef])).1 b
    ((verify_authorized_iff _ _ _).1 hauth)
  have hr := responders_of_quiet _ hq
  cases parseBool req.assemble <;> cases b <;>
    simp [responders_append, responders_cons, responders_runDeferred, hr, Event.isResponder]

/-- C7: for a request with no via whose requested object is fetched, is within
the size ceiling and decodes to a share descriptor that is not expired, not
transitive and whose target is the requested reference, verification succeeds
with `isTransitive = false`. -/
theorem C7_single_hop_valid (env : Env) (blobRef : Ref) (file : File) (size : Int)
    (blob : SchemaBlob) (share : Share)
    (hf : env.FetchStreaming blobRef = .ok (file, size))
    (hsz : size ≤ env.MaxSchemaBlobSize)
    (hd : env.BlobFromReader blobRef file = .ok blob)
    (hs : blob.AsShare = some share)
    (hexp : share.IsExpired = false)
    (hnt : share.IsTransitive = false)
    (_htgt : share.Target = blobRef) :
    verify env [blobRef] = .Authorized false := by
  rw [verify_authorized_iff, chainWalk_cons]
  have hroot : (rootHop env [blobRef] blobRef).result = some false := by
    rw [rootHop_result]
    exact ⟨file, size, blob, share, hf, hsz, hd, hs, hexp, by simp [targetMismatch],
      by simp, hnt.symm⟩
  rw [hroot]
  simp [walkLoop]

/-- Witness of C7: the share `refN` of the sample store, requested with no via. -/
theorem C7_single_hop_valid_witness : verify sampleEnv [refN] = .Authorized false :=
  C7_single_hop_valid sampleEnv refN ⟨ascii "share->9", none⟩ 8
    ⟨some ⟨refN, false, false⟩⟩ ⟨refN, false, false⟩ rfl (by decide) rfl rfl rfl rfl rfl

/-- C8: for every request whose chain verifies as `Authorized isTransitive`: when
the assemble flag parses to true and `isTransitive` is true, the one response
is the download handler on the target reference; when the flag parses to true
and `isTransitive` is false, the one response is the unauthorized response and
no content is served; otherwise (flag false or not a boolean) the one response
is the raw blob serve on the target reference. -/
theorem C8_dispatch (env : Env) (clk : Clock) (req : Request) (blobRef : Ref)
    (via : List Ref) (isTransitive : Bool) (hget : req.IsGet = true)
    (hvia : parseVia env req.via = some via)
    (hauth : verify env (via ++ [blobRef]) = .Authorized isTransitive) :
    (parseBool req.assemble = true → isTransitive = true →
        responders (handleGetViaSharing env clk req blobRef) = [.download blobRef]) ∧
      (parseBool req.assemble = true → isTransitive = false →
        responders (handleGetViaSharing env clk req blobRef) = [.sendUnauthorized]) ∧
      (parseBool req.assemble = false →
        responders (handleGetViaSharing env clk req blobRef) = [.serveBlobRef blobRef]) := by
  rw [responders_of_authorized env clk req blobRef via isTransitive hget hvia hauth]
  refine ⟨fun h1 h2 => ?_, fun h1 h2 => ?_, fun h1 => ?_⟩
  · simp [h1, h2]
  · simp [h1, h2]
  · simp [h1]

/-- Witness of C8: the non-transitive share `refN` of the sample store, requested
with no via, is refused with `assemble=true` and served without it. -/
theorem C8_dispatch_witness :
    responders (handleGetViaSharing sampleEnv sampleClock
        ⟨true, [], ascii "true", ascii "sha1-9"⟩ refN) = [.sendUnauthorized] ∧
      responders (handleGetViaSharing sampleEnv sampleClock
        ⟨true, [], [], ascii "sha1-9"⟩ refN) = [.serveBlobRef refN] :=
  ⟨(C8_dispatch sampleEnv sampleClock ⟨true, [], ascii "true", ascii "sha1-9"⟩ refN []
      false rfl rfl (by decide)).2.1 (by decide) rfl,
    (C8_dispatch sampleEnv sampleClock ⟨true, [], [], ascii "sha1-9"⟩ refN []
      false rfl rfl (by decide)).2.2 (by decide)⟩

theorem handle_shape (env : Env) (clk : Clock) (req : Request) (blobRef : Ref) :
    (req.IsGet = false ∧
        handleGetViaSharing env clk req blobRef = [.badRequest "Invalid method"]) ∨
      (req.IsGet = true ∧ parseVia env req.via = none ∧
        handleGetViaSharing env clk req blobRef =
          [.badRequest "Malformed blobref in via param", .sleep (sleepArg clk)]) ∨
      ∃ (via : List Ref) (pre : List Event) (closes : List Ref),
        req.IsGet = true ∧ parseVia env req.via = some via ∧
        pre.all Event.isQuiet = true ∧
        (handleGetViaSharing env clk req blobRef =
            pre ++ [.sendUnauthorized] ++ closes.map Event.close ++ [.sleep (sleepArg clk)] ∨
          handleGetViaSharing env clk req blobRef =
            pre ++ [.download blobRef] ++ closes.map Event.close ∨
          handleGetViaSharing env clk req blobRef =
            pre ++ [.serveBlobRef blobRef] ++ closes.map Event.close) := by
  cases hget : req.IsGet with
  | false => left; simp [handleGetViaSharing, hget]
  | true =>
    right
    cases hvia : parseVia env req.via with
    | none => left; simp [handleGetViaSharing, hget, hvia, runDeferred]
    | some via =>
      right
      cases hv : verify env (via ++ [blobRef]) with
      | Denied =>
        obtain ⟨pre, h1, h2⟩ := (chainWalk_shape env (via ++ [blobRef])).2
          ((verify_denied_iff _ _).1 hv)
        refine ⟨via, pre, (chainWalk env (via ++ [blobRef])).deferred.reverse, rfl, rfl, h2,
          Or.inl ?_⟩
        rw [handle_of_denied env clk req blobRef via hget hvia hv, h1]
        simp [runDeferred]
      | Authorized b =>
        have hq := (chainWalk_shape env (via ++ [blobRef])).1 b
          ((verify_authorized_iff _ _ _).1 hv)
        refine ⟨via, (chainWalk env (via ++ [blobRef])).events,
          (chainWalk env (via ++ [blobRef])).deferred.reverse, rfl, rfl, hq, ?_⟩
        rw [handle_of_authorized env clk req blobRef via b hget hvia hv]
        cases parseBool req.assemble <;> cases b <;> simp [runDeferred]

theorem not_mem_of_quiet (xs : List Event) (h : xs.all Event.isQuiet = true) (e : Event)
    (he : e.isQuiet = false) : e ∉ xs := by
  intro hmem
  rw [List.all_eq_true] at h
  rw [h e hmem] at he
  cases he

theorem handle_denied_shape (env : Env) (clk : Clock) (req : Request) (blobRef : Ref)
    (hden : Event.sendUnauthorized ∈ handleGetViaSharing env clk req blobRef) :
    ∃ (pre : List Event) (closes : List Ref),
      pre.all Event.isQuiet = true ∧
      handleGetViaSharing env clk req blobRef =
        pre ++ [.sendUnauthorized] ++ closes.map Event.close ++ [.sleep (sleepArg clk)] := by
  rcases handle_shape env clk req blobRef with ⟨_, h⟩ | ⟨_, _, h⟩ |
    ⟨via, pre, closes, _, _, hq, h | h | h⟩
  · rw [h] at hden; simp at hden
  · rw [h] at hden; simp at hden
  · exact ⟨pre, closes, hq, h⟩
  · rw [h] at hden
    have := not_mem_of_quiet pre hq .sendUnauthorized rfl
    simp [this] at hden
  · rw [h] at hden
    have := not_mem_of_quiet pre hq .sendUnauthorized rfl
    simp [this] at hden

theorem wrapInt64_of_range (x : Int) (h1 : minDuration ≤ x) (h2 : x ≤ maxDuration) :
    wrapInt64 x = x := by
  unfold wrapInt64
  unfold minDuration at h1
  unfold maxDuration at h2
  norm_num at h1 h2 ⊢
  omega

theorem timeSub_range (t u : Int) :
    minDuration ≤ timeSub t u ∧ timeSub t u ≤ maxDuration := by
  unfold timeSub minDuration maxDuration
  norm_num
  split_ifs <;> omega

theorem sleeps_denied_shape (pre : List Event) (closes : List Ref) (d : Int)
    (hq : pre.all Event.isQuiet = true) :
    sleeps (pre ++ [.sendUnauthorized] ++ closes.map Event.close ++ [.sleep d]) = [d] := by
  simp [sleeps_append, sleeps_of_quiet pre hq, sleeps_closes, sleeps]

/-- C9: on every run of `handleGetViaSharing` that sends the unauthorized
response, `time.Sleep` is called exactly once, as the last effect, with the
`int64` value of `fetchFailureDelay - elapsed`, where `elapsed` is
`time.Now().Sub(startTime)`; the run sleeps for `max 0` of that value, which is
`max 0 (fetchFailureDelay - elapsed)` whenever the subtraction does not leave
the `int64` range. With a non-decreasing clock the sleep is
`max 0 (fetchFailureDelay - (now - start))`, the handler returns no earlier
than `fetchFailureDelay` after the start, and the requested sleep is at most
`fetchFailureDelay`, which is 200 ms. -/
theorem C9_denied_sleeps_to_floor (env : Env) (clk : Clock) (req : Request) (blobRef : Ref)
    (hden : Event.sendUnauthorized ∈ handleGetViaSharing env clk req blobRef) :
    sleeps (handleGetViaSharing env clk req blobRef) =
        [wrapInt64 (fetchFailureDelay - timeSub clk.deferTime clk.startTime)] ∧
      (handleGetViaSharing env clk req blobRef).getLast? =
        some (.sleep (wrapInt64 (fetchFailureDelay - timeSub clk.deferTime clk.startTime))) ∧
      totalSleep (handleGetViaSharing env clk req blobRef) =
        max 0 (wrapInt64 (fetchFailureDelay - timeSub clk.deferTime clk.startTime)) ∧
      (fetchFailureDelay - maxDuration ≤ timeSub clk.deferTime clk.startTime →
        totalSleep (handleGetViaSharing env clk req blobRef) =
          max 0 (fetchFailureDelay - timeSub clk.deferTime clk.startTime)) ∧
      (clk.startTime ≤ clk.deferTime →
        totalSleep (handleGetViaSharing env clk req blobRef) =
          max 0 (fetchFailureDelay - (clk.deferTime - clk.startTime)) ∧
        fetchFailureDelay ≤ earliestReturn clk - clk.startTime ∧
        sleepArg clk ≤ fetchFailureDelay ∧
        fetchFailureDelay = 200000000) := by
  obtain ⟨pre, closes, hq, htr⟩ := handle_denied_shape env clk req blobRef hden
  have hs : sleeps (handleGetViaSharing env clk req blobRef) = [sleepArg clk] := by
    rw [htr]; exact sleeps_denied_shape pre closes _ hq
  have ht : totalSleep (handleGetViaSharing env clk req blobRef) = max 0 (sleepArg clk) := by
    unfold totalSleep
    rw [hs]
    simp only [List.map_cons, List.map_nil, List.sum_cons, List.sum_nil, add_zero, sleepPause]
    split_ifs with h
    · exact (max_eq_left h).symm
    · exact (max_eq_right (by omega)).symm
  have hrange := timeSub_range clk.deferTime clk.startTime
  have hnowrap : fetchFailureDelay - maxDuration ≤ timeSub clk.deferTime clk.startTime →
      sleepArg clk = fetchFailureDelay - timeSub clk.deferTime clk.startTime := by
    intro h
    unfold sleepArg
    apply wrapInt64_of_range
    · have h2 := hrange.2
      unfold fetchFailureDelay minDuration maxDuration at *
      norm_num at *
      omega
    · omega
  refine ⟨hs, ?_, ht, ?_, ?_⟩
  · rw [htr, List.getLast?_append_of_ne_nil _ (by simp)]
    rfl
  · intro h
    rw [ht, hnowrap h]
  · intro hclock
    have hel : timeSub clk.deferTime clk.startTime =
        min (clk.deferTime - clk.startTime) maxDuration := by
      unfold timeSub
      have h0 : ¬ clk.deferTime - clk.startTime < minDuration := by
        unfold minDuration; norm_num; omega
      rw [if_neg h0]
      split_ifs with h1
      · exact (min_eq_right (le_of_lt h1)).symm
      · exact (min_eq_left (by omega)).symm
    have hge : fetchFailureDelay - maxDuration ≤ timeSub clk.deferTime clk.startTime := by
      rw [hel]
      unfold fetchFailureDelay maxDuration
      norm_num
      omega
    have harg := hnowrap hge
    have hff : fetchFailureDelay = 200000000 := by unfold fetchFailureDelay; norm_num
    have hmaxd : maxDuration = 9223372036854775807 := by unfold maxDuration; norm_num
    refine ⟨?_, ?_, ?_, hff⟩
    · rw [ht, harg, hel, hff, hmaxd]
      omega
    · unfold earliestReturn sleepPause
      rw [harg, hel, hff, hmaxd]
      split_ifs <;> omega
    · rw [harg, hel, hff, hmaxd]
      omega

theorem arrive_none_succ (env : Env) (chain : List Ref) (k : Nat)
    (h : arrive env chain k = none) : arrive env chain (k + 1) = none := by
  rw [arrive, h]

theorem arrive_none_of_le (env : Env) (chain : List Ref) (k m : Nat) (hkm : k ≤ m)
    (h : arrive env chain k = none) : arrive env chain m = none := by
  induction m with
  | zero =>
    have : k = 0 := by omega
    subst this; exact h
  | succ m ih =>
    by_cases hk : k = m + 1
    · subst hk; exact h
    · exact arrive_none_succ env chain m (ih (by omega))

theorem arrive_succ_of_some (env : Env) (chain : List Ref) (k : Nat) (t : Bool) (br : Ref)
    (h : arrive env chain k = some t) (hbr : chain[k]? = some br) :
    arrive env chain (k + 1) = (hop env chain k br t).result := by
  rw [arrive, h]
  simp only [hbr]

theorem walkLoop_result_eq_arrive (env : Env) (chain : List Ref) :
    ∀ (rest : List Ref) (i : Nat) (t : Bool), chain.drop i = rest → i ≤ chain.length →
      arrive env chain i = some t →
        (walkLoop env chain i rest t).result = arrive env chain chain.length := by
  intro rest
  induction rest with
  | nil =>
    intro i t hdrop hle harr
    have hlen : chain.length ≤ i := List.drop_eq_nil_iff.1 hdrop
    have : i = chain.length := by omega
    subst this
    rw [harr]; simp [walkLoop]
  | cons br rest ih =>
    intro i t hdrop hle harr
    have hilt : i < chain.length := by
      by_contra hc
      have : chain.drop i = [] := List.drop_eq_nil_iff.2 (by omega)
      rw [this] at hdrop; cases hdrop
    have hbr : chain[i]? = some br := by
      have h1 : (chain.drop i)[0]? = some br := by rw [hdrop]; simp
      simpa [List.getElem?_drop] using h1
    have hrest : chain.drop (i + 1) = rest := by
      have h1 : (chain.drop i).drop 1 = rest := by rw [hdrop]; rfl
      rw [List.drop_drop] at h1
      rw [← h1, Nat.add_comm]
    have hstep := arrive_succ_of_some env chain i t br harr hbr
    rw [walkLoop]
    cases hr : (hop env chain i br t).result with
    | none =>
      dsimp only
      rw [hr]
      rw [hr] at hstep
      exact (arrive_none_of_le env chain (i + 1) chain.length (by omega) hstep).symm
    | some u =>
      dsimp only
      rw [hr] at hstep
      exact ih (i + 1) u hrest (by omega) hstep

theorem chainWalk_result_eq_arrive (env : Env) (chain : List Ref) :
    (chainWalk env chain).result = arrive env chain chain.length :=
  walkLoop_result_eq_arrive env chain chain 0 false rfl (by omega) rfl

theorem verify_denied_of_arrive_none (env : Env) (chain : List Ref) (k : Nat)
    (hk : k ≤ chain.length) (h : arrive env chain k = none) : verify env chain = .Denied := by
  rw [verify_denied_iff, chainWalk_result_eq_arrive]
  exact arrive_none_of_le env chain k chain.length hk h

theorem hop_interior_result (env : Env) (chain : List Ref) (i : Nat) (br : Ref) (t u : Bool)
    (hi : 0 < i) (hnext : i + 1 < chain.length) (hbr : chain[i]? = some br) :
    (hop env chain i br t).result = some u ↔ u = t ∧ InteriorPasses env chain i := by
  unfold hop
  rw [if_neg (by omega), if_neg (by omega), interiorHop_result]
  have hget : chain.getD (i + 1) br = chain[i + 1] := by
    simp [List.getD_eq_getElem?_getD, List.getElem?_eq_getElem hnext]
  rw [hget]
  unfold InteriorPasses
  constructor
  · rintro ⟨h1, file, size, sl, h2, h3, h4⟩
    exact ⟨h1, br, chain[i + 1], file, size, sl, hbr,
      List.getElem?_eq_getElem hnext, h2, h3, h4⟩
  · rintro ⟨h1, br2, next, file, size, sl, h2, h3, h4, h5, h6⟩
    rw [hbr] at h2; cases h2
    rw [List.getElem?_eq_getElem hnext] at h3; cases h3
    exact ⟨h1, file, size, sl, h4, h5, h6⟩

/-- C6, as amended: at every interior hop `i` the walk arrives at, if the fetch
of `chain[i]` and its bounded read succeed and the bytes read (at most the
first `MaxSchemaBlobSize` bytes of the object) contain the text of `chain[i+1]`
anywhere, the hop passes and the walk arrives at hop `i+1` with the same
state; otherwise the walk ends there and the request is denied. -/
theorem C6_interior_hop_bounded (env : Env) (chain : List Ref) (i : Nat) (t : Bool)
    (hi : 0 < i) (hnext : i + 1 < chain.length) (hreach : arrive env chain i = some t) :
    (InteriorPasses env chain i → arrive env chain (i + 1) = some t) ∧
      (¬ InteriorPasses env chain i →
        arrive env chain (i + 1) = none ∧ verify env chain = .Denied ∧
        ∀ (clk : Clock) (req : Request) (via : List Ref) (blobRef : Ref),
          req.IsGet = true → parseVia env req.via = some via → via ++ [blobRef] = chain →
            responders (handleGetViaSharing env clk req blobRef) = [.sendUnauthorized]) := by
  have hbr : chain[i]? = some chain[i] := List.getElem?_eq_getElem (by omega)
  have hstep := arrive_succ_of_some env chain i t chain[i] hreach hbr
  constructor
  · intro hp
    rw [hstep]
    exact (hop_interior_result env chain i chain[i] t t hi hnext hbr).2 ⟨rfl, hp⟩
  · intro hnp
    have hnone : arrive env chain (i + 1) = none := by
      rw [hstep]
      cases hr : (hop env chain i chain[i] t).result with
      | none => rfl
      | some u =>
        exact absurd ((hop_interior_result env chain i chain[i] t u hi hnext hbr).1 hr).2 hnp
    have hden := verify_denied_of_arrive_none env chain (i + 1) (by omega) hnone
    refine ⟨hnone, hden, ?_⟩
    intro clk req via blobRef hget hvia hch
    subst hch
    exact responders_of_denied env clk req blobRef via hget hvia hden

theorem readAllLimit_padded (n : Nat) (hn : 0 < n) (text : GoString) :
    readAllLimit ⟨List.replicate n 32 ++ text, none⟩ (n : Int) =
      .ok (List.replicate n 32) := by
  unfold readAllLimit
  have h1 : ¬ (n : Int) ≤ 0 := by omega
  have h2 : (n : Int).toNat ≤ (List.replicate n (32 : Byte) ++ text).length := by
    simp
  rw [if_neg h1, if_pos h2, Int.toNat_ofNat, List.take_left' (List.length_replicate n 32)]

theorem not_infix_replicate (n : Nat) (b c : Byte) (text : GoString) (hc : c ∈ text)
    (hne : c ≠ b) : ¬ text <:+: List.replicate n b := by
  intro h
  have hmem : c ∈ List.replicate n b := h.subset hc
  exact hne (List.eq_of_mem_replicate hmem)

theorem ceilingEnv_not_interior : ¬ InteriorPasses ceilingEnv [refS, refA, refB] 1 := by
  rintro ⟨br, next, file, size, slurp, h1, h2, h3, h4, h5⟩
  simp only [List.getElem?_cons_succ, List.getElem?_cons_zero, Option.some.injEq] at h1 h2
  subst h1 h2
  have hf : ceilingEnv.FetchStreaming refA = .ok (⟨longObject, none⟩, 1048582) := rfl
  rw [hf] at h3
  cases h3
  have hr : readAllLimit ⟨longObject, none⟩ ceilingEnv.MaxSchemaBlobSize =
      .ok (List.replicate oneMiB 32) :=
    readAllLimit_padded oneMiB (by unfold oneMiB; omega) refB.String
  rw [hr] at h4
  cases h4
  exact not_infix_replicate oneMiB 32 115 refB.String (by decide) (by decide) h5

/-- C6 as stated fails: in a store with a ceiling of 1 MiB the walk arrives at
the interior hop `refA` of the chain `refS, refA, refB`; the content of `refA`
contains the text of `refB`, after its first 1 MiB; the hop does not pass and
the request is denied. -/
theorem C6_counterexample :
    arrive ceilingEnv [refS, refA, refB] 1 = some true ∧
      ceilingEnv.FetchStreaming refA = .ok (⟨longObject, none⟩, 1048582) ∧
      refB.String <:+: longObject ∧
      arrive ceilingEnv [refS, refA, refB] 2 = none ∧
      verify ceilingEnv [refS, refA, refB] = .Denied := by
  have h1 : arrive ceilingEnv [refS, refA, refB] 1 = some true := by decide
  have h2 : arrive ceilingEnv [refS, refA, refB] 2 = none := by
    rw [arrive_succ_of_some ceilingEnv [refS, refA, refB] 1 true refA h1 rfl]
    cases hr : (hop ceilingEnv [refS, refA, refB] 1 refA true).result with
    | none => rfl
    | some u =>
      exact absurd ((hop_interior_result ceilingEnv [refS, refA, refB] 1 refA true u
        (by omega) (by simp) rfl).1 hr).2 ceilingEnv_not_interior
  exact ⟨h1, rfl, (List.suffix_append _ _).isInfix, h2,
    verify_denied_of_arrive_none ceilingEnv [refS, refA, refB] 2 (by simp) h2⟩

/-- Witness of C6: in the sample store the walk over `refS, refA, refB, refC`
arrives at the interior hop `refA`, which mentions `refB`, and goes on. -/
theorem C6_interior_hop_bounded_witness :
    arrive sampleEnv [refS, refA, refB, refC] 1 = some true ∧
      arrive sampleEnv [refS, refA, refB, refC] 2 = some true :=
  ⟨by decide,
    (C6_interior_hop_bounded sampleEnv [refS, refA, refB, refC] 1 true (by decide)
      (by decide) (by decide)).1
      ⟨refA, refB, ⟨ascii "see sha1-b", none⟩, 10, ascii "see sha1-b", rfl, rfl, rfl, rfl,
        ⟨ascii "see ", [], by decide⟩⟩⟩

/-- Witness of C1: the chain `refS, refA, refB, refC` of the sample store is
authorized as transitive, so all its conditions hold. -/
theorem C1_authorized_iff_chain_passes_witness :
    verify sampleEnv [refS, refA, refB, refC] = .Authorized true ∧
      ∃ share, ChainPasses sampleEnv [refS, refA, refB, refC] share ∧
        true = share.IsTransitive :=
  ⟨by decide,
    ((C1_authorized_iff_chain_passes sampleEnv [refS, refA, refB, refC] (by decide)).1
      true).1 (by decide)⟩

/-- Witness of C9: the sample request is refused five nanoseconds after its
start and sleeps for the rest of the 200 ms. -/
theorem C9_denied_sleeps_to_floor_witness :
    Event.sendUnauthorized ∈
        handleGetViaSharing sampleEnv sampleClock sampleDeniedRequest refC ∧
      totalSleep (handleGetViaSharing sampleEnv sampleClock sampleDeniedRequest refC) =
        max 0 (fetchFailureDelay - (sampleClock.deferTime - sampleClock.startTime)) ∧
      fetchFailureDelay ≤ earliestReturn sampleClock - sampleClock.startTime :=
  have h := (C9_denied_sleeps_to_floor sampleEnv sampleClock sampleDeniedRequest refC
    (by decide)).2.2.2.2 (by decide)
  ⟨by decide, h.1, h.2.1⟩

theorem sleepBeforeAux_denied_shape (pre rest : List Event)
    (hq : pre.all Event.isQuiet = true) :
    sleepBeforeAux false (pre ++ [.sendUnauthorized] ++ rest) = false := by
  induction pre with
  | nil => simp [sleepBeforeAux]
  | cons e pre ih =>
    simp only [List.all_cons, Bool.and_eq_true] at hq
    have ih2 := ih hq.2
    cases e <;> simp_all [Event.isQuiet, sleepBeforeAux]

/-- C10 as stated fails: in the run of the sample request the unauthorized
response is sent before the sleep, not after it. -/
theorem C10_counterexample :
    handleGetViaSharing sampleEnv sampleClock sampleDeniedRequest refC =
        [.fetch refS, .decode refS, .fetch refA,
          .log (.noReference 1 refA.String refC.String), .sendUnauthorized,
          .close refA, .close refS, .sleep 199999995] ∧
      sleepBeforeEveryUnauthorized
        (handleGetViaSharing sampleEnv sampleClock sampleDeniedRequest refC) = false := by
  decide

/-- C10, as amended: on every run that sends the unauthorized response,
`auth.SendUnauthorized` is called once, after probes and log lines only; it is
followed by the deferred `Close` calls and then by the timing-floor sleep,
which is the last effect of the handler; no sleep comes before the call. -/
theorem C10_unauthorized_then_sleep (env : Env) (clk : Clock) (req : Request)
    (blobRef : Ref)
    (hden : Event.sendUnauthorized ∈ handleGetViaSharing env clk req blobRef) :
    (∃ (pre : List Event) (closes : List Ref),
        pre.all Event.isQuiet = true ∧
        handleGetViaSharing env clk req blobRef =
          pre ++ [.sendUnauthorized] ++ closes.map Event.close ++
            [.sleep (sleepArg clk)]) ∧
      sleepBeforeEveryUnauthorized (handleGetViaSharing env clk req blobRef) = false ∧
      responders (handleGetViaSharing env clk req blobRef) = [.sendUnauthorized] ∧
      sleeps (handleGetViaSharing env clk req blobRef) = [sleepArg clk] := by
  obtain ⟨pre, closes, hq, htr⟩ := handle_denied_shape env clk req blobRef hden
  refine ⟨⟨pre, closes, hq, htr⟩, ?_, ?_, ?_⟩
  · unfold sleepBeforeEveryUnauthorized
    rw [htr, List.append_assoc]
    exact sleepBeforeAux_denied_shape pre _ hq
  · rw [htr]
    simp [responders_append, responders_of_quiet pre hq, responders_closes, responders_cons,
      Event.isResponder]
    rfl
  · rw [htr]
    exact sleeps_denied_shape pre closes _ hq

/-- Witness of C10: the run of the sample request. -/
theorem C10_unauthorized_then_sleep_witness :
    Event.sendUnauthorized ∈
        handleGetViaSharing sampleEnv sampleClock sampleDeniedRequest refC ∧
      responders (handleGetViaSharing sampleEnv sampleClock sampleDeniedRequest refC) =
        [.sendUnauthorized] ∧
      sleeps (handleGetViaSharing sampleEnv sampleClock sampleDeniedRequest refC) =
        [sleepArg sampleClock] :=
  have h := C10_unauthorized_then_sleep sampleEnv sampleClock sampleDeniedRequest refC
    (by decide)
  ⟨by decide, h.2.2.1, h.2.2.2⟩

/-- The runs that send the unauthorized response are the runs of a GET request
with a well-formed via whose chain is `Denied`, or is `Authorized false` while
the assemble flag parses to true. -/
theorem sendUnauthorized_mem_iff (env : Env) (clk : Clock) (req : Request) (blobRef : Ref) :
    Event.sendUnauthorized ∈ handleGetViaSharing env clk req blobRef ↔
      req.IsGet = true ∧ ∃ via, parseVia env req.via = some via ∧
        (verify env (via ++ [blobRef]) = .Denied ∨
          (verify env (via ++ [blobRef]) = .Authorized false ∧
            parseBool req.assemble = true)) := by
  constructor
  · intro hmem
    cases hget : req.IsGet with
    | false => simp [handleGetViaSharing, hget] at hmem
    | true =>
      refine ⟨rfl, ?_⟩
      cases hvia : parseVia env req.via with
      | none => simp [handleGetViaSharing, hget, hvia, runDeferred] at hmem
      | some via =>
        refine ⟨via, rfl, ?_⟩
        cases hv : verify env (via ++ [blobRef]) with
        | Denied => exact Or.inl rfl
        | Authorized b =>
          right
          have hr := responders_of_authorized env clk req blobRef via b hget hvia hv
          have hin : Event.sendUnauthorized ∈
              responders (handleGetViaSharing env clk req blobRef) := by
            unfold responders
            exact List.mem_filter.2 ⟨hmem, rfl⟩
          rw [hr] at hin
          cases hp : parseBool req.assemble <;> cases b <;> simp [hp] at hin ⊢
  · rintro ⟨hget, via, hvia, hv | ⟨hv, hp⟩⟩
    · have hr := responders_of_denied env clk req blobRef via hget hvia hv
      have hin : Event.sendUnauthorized ∈
          responders (handleGetViaSharing env clk req blobRef) := by rw [hr]; simp
      exact (List.mem_filter.1 hin).1
    · have hr := responders_of_authorized env clk req blobRef via false hget hvia hv
      have hin : Event.sendUnauthorized ∈
          responders (handleGetViaSharing env clk req blobRef) := by rw [hr]; simp [hp]
      exact (List.mem_filter.1 hin).1

/-! ## Client errors -/

theorem parseViaList_none_iff (env : Env) (pieces : List GoString) :
    parseViaList env pieces = none ↔ ∃ vs ∈ pieces, env.Parse vs = none := by
  induction pieces with
  | nil => simp [parseViaList]
  | cons vs rest ih =>
    rw [parseViaList]
    cases hp : env.Parse vs with
    | none => simp [hp]
    | some br =>
      dsimp only
      cases hr : parseViaList env rest with
      | none =>
        dsimp only
        have := ih.1 hr
        simp only [List.mem_cons, exists_eq_or_imp, hp, true_iff]
        right; exact this
      | some brs =>
        dsimp only
        have hno : ¬ ∃ vs ∈ rest, env.Parse vs = none := by
          intro h; rw [ih.2 h] at hr; cases hr
        simp only [List.mem_cons, exists_eq_or_imp, hp]
        constructor
        · intro h; cases h
        · rintro (h | h)
          · cases h
          · exact absurd h hno

theorem parseVia_none_iff (env : Env) (via : GoString) :
    parseVia env via = none ↔
      via ≠ [] ∧ ∃ vs ∈ stringsSplit via 44, env.Parse vs = none := by
  unfold parseVia
  by_cases h : via = []
  · simp [h]
  · simp only [h, if_false, ne_eq, not_false_eq_true, true_and]
    exact parseViaList_none_iff env _

theorem handle_bad_method (env : Env) (clk : Clock) (req : Request) (blobRef : Ref)
    (hget : req.IsGet = false) :
    handleGetViaSharing env clk req blobRef = [.badRequest "Invalid method"] := by
  simp [handleGetViaSharing, hget]

theorem handle_bad_via (env : Env) (clk : Clock) (req : Request) (blobRef : Ref)
    (hget : req.IsGet = true) (hvia : parseVia env req.via = none) :
    handleGetViaSharing env clk req blobRef =
      [.badRequest "Malformed blobref in via param", .sleep (sleepArg clk)] := by
  simp [handleGetViaSharing, hget, hvia, runDeferred]

/-- C11 as stated fails: the sample request with the via `sha1-5,sha-a`, whose
second element is not a reference, gets the bad-request response and then
sleeps for the rest of the 200 ms. -/
theorem C11_counterexample :
    sampleEnv.Parse (ascii "sha-a") = none ∧
      handleGetViaSharing sampleEnv sampleClock sampleMalformedViaRequest refC =
        [.badRequest "Malformed blobref in via param", .sleep 199999995] ∧
      sleeps (handleGetViaSharing sampleEnv sampleClock sampleMalformedViaRequest refC) =
        [199999995] := by
  decide

/-- C11, as amended: a request with another method than GET gets the
bad-request response and nothing else, and a request whose path suffix does
not start with a reference gets the 400 response of `ServeHTTP` and nothing
else, both without a sleep; a GET request with an element of via that is not a
reference gets the bad-request response followed by the timing-floor sleep. -/
theorem C11_client_errors_sleep (env : Env) (clk : Clock) (req : Request) :
    (∀ blobRef, req.IsGet = false →
        handleGetViaSharing env clk req blobRef = [.badRequest "Invalid method"] ∧
        sleeps (handleGetViaSharing env clk req blobRef) = []) ∧
      (env.Parse (stringsSplitN2Head 47 req.PathSuffix) = none →
        ServeHTTP env clk req =
          [.httpError (ascii "Malformed share pathSuffix: " ++ req.PathSuffix) 400] ∧
        sleeps (ServeHTTP env clk req) = []) ∧
      (∀ blobRef, req.IsGet = true → req.via ≠ [] →
        (∃ vs ∈ stringsSplit req.via 44, env.Parse vs = none) →
        handleGetViaSharing env clk req blobRef =
          [.badRequest "Malformed blobref in via param", .sleep (sleepArg clk)] ∧
        sleeps (handleGetViaSharing env clk req blobRef) = [sleepArg clk]) := by
  refine ⟨fun blobRef hget => ?_, fun hpath => ?_, fun blobRef hget hne hbad => ?_⟩
  · rw [handle_bad_method env clk req blobRef hget]
    exact ⟨rfl, rfl⟩
  · have h : ServeHTTP env clk req =
        [.httpError (ascii "Malformed share pathSuffix: " ++ req.PathSuffix) 400] := by
      simp [ServeHTTP, hpath]
    rw [h]
    exact ⟨rfl, rfl⟩
  · have hvia : parseVia env req.via = none := (parseVia_none_iff env req.via).2 ⟨hne, hbad⟩
    rw [handle_bad_via env clk req blobRef hget hvia]
    exact ⟨rfl, rfl⟩

/-- Witness of C11: the three sample requests with a client error. -/
theorem C11_client_errors_sleep_witness :
    sleeps (handleGetViaSharing sampleEnv sampleClock sampleBadMethodRequest refA) = [] ∧
      sleeps (ServeHTTP sampleEnv sampleClock sampleMalformedPathRequest) = [] ∧
      sleeps (handleGetViaSharing sampleEnv sampleClock sampleMalformedViaRequest refC) =
        [sleepArg sampleClock] :=
  ⟨((C11_client_errors_sleep sampleEnv sampleClock sampleBadMethodRequest).1 refA rfl).2,
    ((C11_client_errors_sleep sampleEnv sampleClock sampleMalformedPathRequest).2.1
      (by decide)).2,
    ((C11_client_errors_sleep sampleEnv sampleClock sampleMalformedViaRequest).2.2 refC rfl
      (by decide) ⟨ascii "sha-a", by decide, by decide⟩).2⟩

/-- C12: for every request with another method than GET, and for every GET
request whose non-empty via has, at any position of its comma-separated list,
an element that fails reference parsing, the one response is the bad-request
response, the unauthorized response is not sent, and nothing is fetched from
the store, whatever the other references are. -/
theorem C12_client_error_no_fetch (env : Env) (clk : Clock) (req : Request) (blobRef : Ref)
    (h : req.IsGet = false ∨
      (req.IsGet = true ∧ req.via ≠ [] ∧
        ∃ vs ∈ stringsSplit req.via 44, env.Parse vs = none)) :
    (∃ msg, responders (handleGetViaSharing env clk req blobRef) = [.badRequest msg]) ∧
      Event.sendUnauthorized ∉ handleGetViaSharing env clk req blobRef ∧
      fetches (handleGetViaSharing env clk req blobRef) = [] ∧
      ∀ br, Event.fetch br ∉ handleGetViaSharing env clk req blobRef := by
  rcases h with hget | ⟨hget, hne, hbad⟩
  · rw [handle_bad_method env clk req blobRef hget]
    exact ⟨⟨_, rfl⟩, by simp, rfl, by simp⟩
  · have hvia : parseVia env req.via = none := (parseVia_none_iff env req.via).2 ⟨hne, hbad⟩
    rw [handle_bad_via env clk req blobRef hget hvia]
    exact ⟨⟨_, rfl⟩, by simp, rfl, by simp⟩

/-- Witness of C12: the sample request with the via `sha1-5,sha-a`, whose first
element is a share blob of the store. -/
theorem C12_client_error_no_fetch_witness :
    responders (handleGetViaSharing sampleEnv sampleClock sampleMalformedViaRequest refC) =
        [.badRequest "Malformed blobref in via param"] ∧
      fetches (handleGetViaSharing sampleEnv sampleClock sampleMalformedViaRequest refC) = [] :=
  have h := C12_client_error_no_fetch sampleEnv sampleClock sampleMalformedViaRequest refC
    (Or.inr ⟨rfl, by decide, ascii "sha-a", by decide, by decide⟩)
  ⟨by decide, h.2.2.1⟩

/-! ## Responses -/

theorem responders_shape (pre : List Event) (closes : List Ref) (post : List Event)
    (r : Event) (hq : pre.all Event.isQuiet = true) (hr : r.isResponder = true)
    (hpost : responders post = []) :
    responders (pre ++ [r] ++ closes.map Event.close ++ post) = [r] := by
  simp [responders_append, responders_of_quiet pre hq, responders_closes, responders_cons,
    hr, hpost]

/-- C13: for one request, any two runs that end in a denial, in whatever store
and at whatever time, send the same response: the single call of
`auth.SendUnauthorized`, which carries nothing of the cause; every other
effect of such a run is a fetch, a decode, a log line, a `Close` or the
sleep. -/
theorem C13_denial_response_uniform (env₁ env₂ : Env) (clk₁ clk₂ : Clock) (req : Request)
    (blobRef : Ref)
    (h₁ : Event.sendUnauthorized ∈ handleGetViaSharing env₁ clk₁ req blobRef)
    (h₂ : Event.sendUnauthorized ∈ handleGetViaSharing env₂ clk₂ req blobRef) :
    responders (handleGetViaSharing env₁ clk₁ req blobRef) =
        responders (handleGetViaSharing env₂ clk₂ req blobRef) ∧
      responders (handleGetViaSharing env₁ clk₁ req blobRef) = [.sendUnauthorized] ∧
      ∀ e ∈ handleGetViaSharing env₁ clk₁ req blobRef,
        e = .sendUnauthorized ∨ e.isQuiet = true ∨ (∃ br, e = .close br) ∨
          e = .sleep (sleepArg clk₁) := by
  obtain ⟨pre₁, closes₁, hq₁, htr₁⟩ := handle_denied_shape env₁ clk₁ req blobRef h₁
  obtain ⟨pre₂, closes₂, hq₂, htr₂⟩ := handle_denied_shape env₂ clk₂ req blobRef h₂
  have hr₁ : responders (handleGetViaSharing env₁ clk₁ req blobRef) = [.sendUnauthorized] := by
    rw [htr₁]; exact responders_shape pre₁ closes₁ _ _ hq₁ rfl rfl
  have hr₂ : responders (handleGetViaSharing env₂ clk₂ req blobRef) = [.sendUnauthorized] := by
    rw [htr₂]; exact responders_shape pre₂ closes₂ _ _ hq₂ rfl rfl
  refine ⟨by rw [hr₁, hr₂], hr₁, ?_⟩
  intro e he
  rw [htr₁] at he
  simp only [List.mem_append, List.mem_singleton, List.mem_map] at he
  rcases he with ((he | he) | ⟨br, _, he⟩) | he
  · right; left
    exact List.all_eq_true.1 hq₁ e he
  · left; exact he
  · right; right; left; exact ⟨br, he.symm⟩
  · right; right; right; exact he

/-- Witness of C13: the sample request is refused by the sample store, where
`refA` does not mention `refC`, and by the empty store, where the root fetch
fails, at two different times. -/
theorem C13_denial_response_uniform_witness :
    responders (handleGetViaSharing sampleEnv sampleClock sampleDeniedRequest refC) =
      responders (handleGetViaSharing emptyEnv ⟨5000, 7000⟩ sampleDeniedRequest refC) :=
  (C13_denial_response_uniform sampleEnv emptyEnv sampleClock ⟨5000, 7000⟩
    sampleDeniedRequest refC (by decide) (by decide)).1

theorem sleeps_served_shape (pre : List Event) (closes : List Ref) (r : Event)
    (hq : pre.all Event.isQuiet = true) (hr : ∀ d, r ≠ .sleep d) :
    sleeps (pre ++ [r] ++ closes.map Event.close) = [] := by
  have h1 : sleeps [r] = [] := by
    cases r <;> simp_all [sleeps]
  rw [sleeps_append, sleeps_append, sleeps_of_quiet pre hq, sleeps_closes, h1]
  rfl

/-- C14: on every run that serves content, by the raw blob serve or by the
download handler, `time.Sleep` is not called. -/
theorem C14_success_no_sleep (env : Env) (clk : Clock) (req : Request) (blobRef : Ref)
    (hserve : ∃ br, Event.download br ∈ handleGetViaSharing env clk req blobRef ∨
      Event.serveBlobRef br ∈ handleGetViaSharing env clk req blobRef) :
    sleeps (handleGetViaSharing env clk req blobRef) = [] ∧
      totalSleep (handleGetViaSharing env clk req blobRef) = 0 ∧
      ∀ d, Event.sleep d ∉ handleGetViaSharing env clk req blobRef := by
  have hs : sleeps (handleGetViaSharing env clk req blobRef) = [] := by
    obtain ⟨br, hbr⟩ := hserve
    rcases handle_shape env clk req blobRef with ⟨_, h⟩ | ⟨_, _, h⟩ |
      ⟨via, pre, closes, _, _, hq, h | h | h⟩
    · rw [h] at hbr; simp at hbr
    · rw [h] at hbr; simp at hbr
    · rw [h] at hbr
      have hd := not_mem_of_quiet pre hq (.download br) rfl
      have hv := not_mem_of_quiet pre hq (.serveBlobRef br) rfl
      simp [hd, hv] at hbr
    · rw [h]; exact sleeps_served_shape pre closes _ hq (by simp)
    · rw [h]; exact sleeps_served_shape pre closes _ hq (by simp)
  refine ⟨hs, by unfold totalSleep; rw [hs]; rfl, ?_⟩
  intro d hmem
  have : d ∈ sleeps (handleGetViaSharing env clk req blobRef) := by
    generalize handleGetViaSharing env clk req blobRef = tr at hmem
    induction tr with
    | nil => simp at hmem
    | cons e tr ih =>
      rcases List.mem_cons.1 hmem with h1 | h1
      · subst h1; simp [sleeps]
      · have := ih h1
        cases e <;> simp [sleeps, this]
  rw [hs] at this
  simp at this

/-- Witness of C14: the share `refN` of the sample store, requested with no via,
is served without a sleep. -/
theorem C14_success_no_sleep_witness :
    sleeps (handleGetViaSharing sampleEnv sampleClock ⟨true, [], [], ascii "sha1-9"⟩ refN) =
      [] :=
  (C14_success_no_sleep sampleEnv sampleClock ⟨true, [], [], ascii "sha1-9"⟩ refN
    ⟨refN, Or.inr (by decide)⟩).1

/-- C19: every run of `handleGetViaSharing` sends exactly one response: the
bad-request response, the unauthorized response, the raw blob serve of the
requested reference or the download handler on the requested reference. -/
theorem C19_exactly_one_responder (env : Env) (clk : Clock) (req : Request) (blobRef : Ref) :
    (responders (handleGetViaSharing env clk req blobRef)).length = 1 ∧
      ((∃ msg, responders (handleGetViaSharing env clk req blobRef) = [.badRequest msg]) ∨
        responders (handleGetViaSharing env clk req blobRef) = [.sendUnauthorized] ∨
        responders (handleGetViaSharing env clk req blobRef) = [.serveBlobRef blobRef] ∨
        responders (handleGetViaSharing env clk req blobRef) = [.download blobRef]) := by
  have hcases :
      (∃ msg, responders (handleGetViaSharing env clk req blobRef) = [.badRequest msg]) ∨
        responders (handleGetViaSharing env clk req blobRef) = [.sendUnauthorized] ∨
        responders (handleGetViaSharing env clk req blobRef) = [.serveBlobRef blobRef] ∨
        responders (handleGetViaSharing env clk req blobRef) = [.download blobRef] := by
    rcases handle_shape env clk req blobRef with ⟨_, h⟩ | ⟨_, _, h⟩ |
      ⟨via, pre, closes, _, _, hq, h | h | h⟩
    · left; rw [h]; exact ⟨_, rfl⟩
    · left; rw [h]; exact ⟨_, rfl⟩
    · right; left; rw [h]
      exact responders_shape pre closes _ _ hq rfl rfl
    · right; right; right; rw [h]
      have := responders_shape pre closes [] (.download blobRef) hq rfl rfl
      simpa using this
    · right; right; left; rw [h]
      have := responders_shape pre closes [] (.serveBlobRef blobRef) hq rfl rfl
      simpa using this
  refine ⟨?_, hcases⟩
  rcases hcases with ⟨msg, h⟩ | h | h | h <;> rw [h] <;> rfl

/-! ## The path of the request -/

theorem stringsSplitAux_head (sep : Byte) (s cur : GoString) :
    (stringsSplitAux sep s cur).head? = some (cur.reverse ++ stringsSplitN2Head sep s) := by
  induction s generalizing cur with
  | nil => simp [stringsSplitAux, stringsSplitN2Head]
  | cons b s ih =>
    unfold stringsSplitAux stringsSplitN2Head
    by_cases hb : b = sep
    · simp [hb]
    · simp only [hb, if_false]
      rw [ih (b :: cur)]
      simp

theorem stringsSplitAux_of_not_mem (sep : Byte) (s cur : GoString) (h : sep ∉ s) :
    stringsSplitAux sep s cur = [cur.reverse ++ s] := by
  induction s generalizing cur with
  | nil => simp [stringsSplitAux]
  | cons b s ih =>
    have hb : ¬ b = sep := fun hb => h (by simp [hb])
    have hs : sep ∉ s := fun hs => h (List.mem_cons_of_mem _ hs)
    unfold stringsSplitAux
    simp only [hb, if_false]
    rw [ih (b :: cur) hs]
    simp

theorem stringsSplitN2Head_eq_firstSegment (sep : Byte) (s : GoString) :
    stringsSplitN2Head sep s = firstSegment sep s := by
  unfold firstSegment stringsSplit
  rw [stringsSplitAux_head]
  simp

/-- C15 as stated fails: for the path suffix `sha1-9/sha1-c` the reference that
`ServeHTTP` parses and passes on is `sha1-9`, the first segment, while the last
segment is `sha1-c`; the blob served is `refN`. -/
theorem C15_counterexample :
    stringsSplitN2Head 47 sampleTwoSegmentRequest.PathSuffix = refN.String ∧
      lastSegment 47 sampleTwoSegmentRequest.PathSuffix = refC.String ∧
      sampleEnv.Parse refC.String = some refC ∧
      ServeHTTP sampleEnv sampleClock sampleTwoSegmentRequest =
        handleGetViaSharing sampleEnv sampleClock sampleTwoSegmentRequest refN ∧
      ServeHTTP sampleEnv sampleClock sampleTwoSegmentRequest =
        [.fetch refN, .decode refN, .serveBlobRef refN, .close refN] := by
  decide

/-- C15, as amended: `ServeHTTP` takes the target reference from the first
segment of the path suffix, the text before its first `/`: that text is what is
parsed, and the reference it parses to is the one passed to
`handleGetViaSharing`. It is the last segment when the suffix has no `/`. -/
theorem C15_target_is_first_segment (env : Env) (clk : Clock) (req : Request) :
    stringsSplitN2Head 47 req.PathSuffix = firstSegment 47 req.PathSuffix ∧
      (∀ blobRef, env.Parse (firstSegment 47 req.PathSuffix) = some blobRef →
        ServeHTTP env clk req = handleGetViaSharing env clk req blobRef) ∧
      (env.Parse (firstSegment 47 req.PathSuffix) = none →
        responders (ServeHTTP env clk req) =
          [.httpError (ascii "Malformed share pathSuffix: " ++ req.PathSuffix) 400]) ∧
      ((47 : Byte) ∉ req.PathSuffix →
        firstSegment 47 req.PathSuffix = req.PathSuffix ∧
        lastSegment 47 req.PathSuffix = req.PathSuffix) := by
  have hfirst := stringsSplitN2Head_eq_firstSegment 47 req.PathSuffix
  refine ⟨hfirst, fun blobRef hp => ?_, fun hp => ?_, fun hno => ?_⟩
  · rw [← hfirst] at hp
    simp [ServeHTTP, hp]
  · rw [← hfirst] at hp
    simp [ServeHTTP, hp, responders, Event.isResponder]
  · unfold firstSegment lastSegment stringsSplit
    rw [stringsSplitAux_of_not_mem 47 req.PathSuffix [] hno]
    simp

/-- Witness of C15: the sample request with the path suffix `sha1-9/sha1-c` is
handled as a request for `refN`. -/
theorem C15_target_is_first_segment_witness :
    sampleEnv.Parse (firstSegment 47 sampleTwoSegmentRequest.PathSuffix) = some refN ∧
      ServeHTTP sampleEnv sampleClock sampleTwoSegmentRequest =
        handleGetViaSharing sampleEnv sampleClock sampleTwoSegmentRequest refN :=
  ⟨by decide,
    (C15_target_is_first_segment sampleEnv sampleClock sampleTwoSegmentRequest).2.1 refN
      (by decide)⟩

/-! ## Prefixes of a chain -/

theorem interiorPasses_take (env : Env) (chain : List Ref) (m i : Nat) (hlt : i + 1 < m)
    (h : InteriorPasses env chain i) : InteriorPasses env (chain.take m) i := by
  obtain ⟨br, next, file, size, slurp, h1, h2, h3, h4, h5⟩ := h
  refine ⟨br, next, file, size, slurp, ?_, ?_, h3, h4, h5⟩
  · rw [List.getElem?_take_of_lt (by omega)]; exact h1
  · rw [List.getElem?_take_of_lt hlt]; exact h2

theorem chainPasses_take (env : Env) (chain : List Ref) (share : Share) (m : Nat)
    (hm : 1 ≤ m) (h : ChainPasses env chain share) : ChainPasses env (chain.take m) share := by
  obtain ⟨⟨root, file, size, blob, h0, h1, h2, h3, h4, h5, h6, h7⟩, hint⟩ := h
  refine ⟨⟨root, file, size, blob, ?_, h1, h2, h3, h4, h5, ?_, ?_⟩, ?_⟩
  · rw [List.getElem?_take_of_lt (by omega)]; exact h0
  · intro next hnext
    by_cases h1m : 1 < m
    · rw [List.getElem?_take_of_lt h1m] at hnext
      exact h6 next hnext
    · rw [List.getElem?_take_eq_none (by omega)] at hnext
      cases hnext
  · intro hlen
    apply h7
    have := List.length_take_le' m chain
    omega
  · intro i hi hlt
    have hlen : (chain.take m).length ≤ chain.length := List.length_take_le' m chain
    have hlem : (chain.take m).length ≤ m := List.length_take_le m chain
    exact interiorPasses_take env chain m i (by omega) (hint i hi (by omega))

/-- C18: for every store and every chain that verifies as `Authorized b`, every
non-empty prefix of the chain, taken as a chain of its own, verifies as
`Authorized b` too. -/
theorem C18_authorized_prefix_closed (env : Env) (chain : List Ref) (m : Nat) (b : Bool)
    (hm : 1 ≤ m) (hauth : verify env chain = .Authorized b) :
    verify env (chain.take m) = .Authorized b := by
  cases chain with
  | nil => simpa using hauth
  | cons root rest =>
    rw [verify_authorized_iff, chainWalk_result env _ (by simp)] at hauth
    obtain ⟨share, hp, hb⟩ := hauth
    have hlen : 1 ≤ ((root :: rest).take m).length := by
      rw [List.length_take]
      simp only [List.length_cons]
      omega
    rw [verify_authorized_iff, chainWalk_result env _ hlen]
    exact ⟨share, chainPasses_take env _ share m hm hp, hb⟩

/-- Witness of C18: the prefix `refS, refA, refB` of the authorized chain
`refS, refA, refB, refC` of the sample store. -/
theorem C18_authorized_prefix_closed_witness :
    verify sampleEnv ([refS, refA, refB, refC].take 3) = .Authorized true :=
  C18_authorized_prefix_closed sampleEnv [refS, refA, refB, refC] 3 true (by decide)
    (by decide)

/-! ## Chains of one element -/

theorem verify_single (env : Env) (blobRef : Ref) (file : File) (size : Int)
    (blob : SchemaBlob) (share : Share)
    (hf : env.FetchStreaming blobRef = .ok (file, size))
    (hsz : size ≤ env.MaxSchemaBlobSize)
    (hd : env.BlobFromReader blobRef file = .ok blob)
    (hs : blob.AsShare = some share) :
    verify env [blobRef] =
      if share.IsExpired then .Denied else .Authorized share.IsTransitive := by
  have hsz2 : ¬ size > env.MaxSchemaBlobSize := by omega
  have hroot : rootHop env [blobRef] blobRef =
      if share.IsExpired then
        ⟨[.fetch blobRef, .decode blobRef, .log .shareExpired, .sendUnauthorized],
          [blobRef], none⟩
      else ⟨[.fetch blobRef, .decode blobRef], [blobRef], some share.IsTransitive⟩ := by
    unfold rootHop
    rw [hf]
    simp only [hsz2, if_false, hd, hs, targetMismatch]
    simp
  unfold verify
  rw [chainWalk_cons, hroot]
  cases share.IsExpired <;> simp [walkLoop]

/-- C20: for a chain of one element the target of the root descriptor plays no
part: two share descriptors decoded for the requested reference that agree on
expiry and transitivity give the same outcome, which is `Denied` when expired
and `Authorized` with the transitive flag otherwise; and a request with no via
that is served is served the requested reference itself. -/
theorem C20_single_hop_target_free (env₁ env₂ : Env) (blobRef : Ref) (f₁ f₂ : File)
    (s₁ s₂ : Int) (b₁ b₂ : SchemaBlob) (sh₁ sh₂ : Share)
    (hf₁ : env₁.FetchStreaming blobRef = .ok (f₁, s₁))
    (hs₁ : s₁ ≤ env₁.MaxSchemaBlobSize)
    (hd₁ : env₁.BlobFromReader blobRef f₁ = .ok b₁)
    (ha₁ : b₁.AsShare = some sh₁)
    (hf₂ : env₂.FetchStreaming blobRef = .ok (f₂, s₂))
    (hs₂ : s₂ ≤ env₂.MaxSchemaBlobSize)
    (hd₂ : env₂.BlobFromReader blobRef f₂ = .ok b₂)
    (ha₂ : b₂.AsShare = some sh₂)
    (hexp : sh₁.IsExpired = sh₂.IsExpired)
    (htr : sh₁.IsTransitive = sh₂.IsTransitive) :
    verify env₁ [blobRef] = verify env₂ [blobRef] ∧
      verify env₁ [blobRef] =
        (if sh₁.IsExpired then .Denied else .Authorized sh₁.IsTransitive) ∧
      ∀ (clk : Clock) (req : Request), req.IsGet = true → req.via = [] →
        sh₁.IsExpired = false →
        responders (handleGetViaSharing env₁ clk req blobRef) =
          if parseBool req.assemble then
            if !sh₁.IsTransitive then [.sendUnauthorized] else [.download blobRef]
          else [.serveBlobRef blobRef] := by
  have h₁ := verify_single env₁ blobRef f₁ s₁ b₁ sh₁ hf₁ hs₁ hd₁ ha₁
  have h₂ := verify_single env₂ blobRef f₂ s₂ b₂ sh₂ hf₂ hs₂ hd₂ ha₂
  refine ⟨by rw [h₁, h₂, hexp, htr], h₁, ?_⟩
  intro clk req hget hvia hne
  have hpv : parseVia env₁ req.via = some [] := by simp [parseVia, hvia]
  have hauth : verify env₁ ([] ++ [blobRef]) = .Authorized sh₁.IsTransitive := by
    rw [List.nil_append, h₁, hne]; rfl
  exact responders_of_authorized env₁ clk req blobRef [] sh₁.IsTransitive hget hpv hauth

/-- Witness of C20: the share `refN` names `refN` in the sample store and `refC`
in the retargeted store; requested with no via it is authorized in both, and
the blob served is `refN`. -/
theorem C20_single_hop_target_free_witness :
    verify sampleEnv [refN] = verify retargetedEnv [refN] ∧
      responders (handleGetViaSharing retargetedEnv sampleClock
        ⟨true, [], [], ascii "sha1-9"⟩ refN) = [.serveBlobRef refN] :=
  ⟨(C20_single_hop_target_free sampleEnv retargetedEnv refN ⟨ascii "share->9", none⟩
      ⟨ascii "share->9", none⟩ 8 8 ⟨some ⟨refN, false, false⟩⟩ ⟨some ⟨refC, false, false⟩⟩
      ⟨refN, false, false⟩ ⟨refC, false, false⟩ rfl (by decide) rfl rfl rfl (by decide)
      rfl rfl rfl rfl).1,
    (C20_single_hop_target_free retargetedEnv sampleEnv refN ⟨ascii "share->9", none⟩
      ⟨ascii "share->9", none⟩ 8 8 ⟨some ⟨refC, false, false⟩⟩ ⟨some ⟨refN, false, false⟩⟩
      ⟨refC, false, false⟩ ⟨refN, false, false⟩ rfl (by decide) rfl rfl rfl (by decide)
      rfl rfl rfl rfl).2.2 sampleClock ⟨true, [], [], ascii "sha1-9"⟩ rfl rfl rfl⟩

/-! ## The bounded read of an interior hop -/

theorem readAllLimit_eq_take (file : File) (n : Int)
    (h : n.toNat ≤ file.data.length ∨ file.readErr = none) :
    readAllLimit file n = .ok (file.data.take n.toNat) := by
  unfold readAllLimit
  by_cases hn : n ≤ 0
  · have : n.toNat = 0 := by omega
    simp [hn, this]
  · rw [if_neg hn]
    by_cases hl : n.toNat ≤ file.data.length
    · rw [if_pos hl]
    · rw [if_neg hl]
      rcases h with h | h
      · exact absurd h hl
      · rw [h, List.take_of_length_le (by omega)]

theorem readAllLimit_congr (f₁ f₂ : File) (n : Int)
    (htake : f₁.data.take n.toNat = f₂.data.take n.toNat)
    (herr : f₁.readErr = f₂.readErr) :
    readAllLimit f₁ n = readAllLimit f₂ n := by
  have hlen : min n.toNat f₁.data.length = min n.toNat f₂.data.length := by
    have := congrArg List.length htake
    simpa [List.length_take] using this
  unfold readAllLimit
  by_cases hn : n ≤ 0
  · simp [hn]
  · rw [if_neg hn, if_neg hn]
    by_cases hl : n.toNat ≤ f₁.data.length
    · have hl2 : n.toNat ≤ f₂.data.length := by omega
      rw [if_pos hl, if_pos hl2, htake]
    · have hl2 : ¬ n.toNat ≤ f₂.data.length := by omega
      rw [if_neg hl, if_neg hl2, herr]
      have e1 : f₁.data.take n.toNat = f₁.data := List.take_of_length_le (by omega)
      have e2 : f₂.data.take n.toNat = f₂.data := List.take_of_length_le (by omega)
      rw [e1, e2] at htake
      rw [htake]

theorem interiorPasses_iff (env : Env) (chain : List Ref) (i : Nat) (br next : Ref)
    (file : File) (size : Int) (hbr : chain[i]? = some br)
    (hnext : chain[i + 1]? = some next)
    (hf : env.FetchStreaming br = .ok (file, size)) :
    InteriorPasses env chain i ↔
      ∃ slurp, readAllLimit file env.MaxSchemaBlobSize = .ok slurp ∧
        next.String <:+: slurp := by
  unfold InteriorPasses
  constructor
  · rintro ⟨br2, next2, file2, size2, slurp, h1, h2, h3, h4, h5⟩
    rw [hbr] at h1; cases h1
    rw [hnext] at h2; cases h2
    rw [hf] at h3; cases h3
    exact ⟨slurp, h4, h5⟩
  · rintro ⟨slurp, h4, h5⟩
    exact ⟨br, next, file, size, slurp, hbr, hnext, hf, h4, h5⟩

theorem arrive_interior_step (env : Env) (chain : List Ref) (i : Nat) (t : Bool)
    (hi : 0 < i) (hnext : i + 1 < chain.length) (hreach : arrive env chain i = some t) :
    (InteriorPasses env chain i → arrive env chain (i + 1) = some t) ∧
      (¬ InteriorPasses env chain i → arrive env chain (i + 1) = none) := by
  have hbr : chain[i]? = some chain[i] := List.getElem?_eq_getElem (by omega)
  have hstep := arrive_succ_of_some env chain i t chain[i] hreach hbr
  constructor
  · intro hp
    rw [hstep]
    exact (hop_interior_result env chain i chain[i] t t hi hnext hbr).2 ⟨rfl, hp⟩
  · intro hnp
    rw [hstep]
    cases hr : (hop env chain i chain[i] t).result with
    | none => rfl
    | some u =>
      exact absurd ((hop_interior_result env chain i chain[i] t u hi hnext hbr).1 hr).2 hnp

/-- C16: at an interior hop the walk arrives at, the object is searched through
the bounded read only. When the object has at least `MaxSchemaBlobSize` bytes,
or its stream ends without a read error, the hop passes exactly when its first
`MaxSchemaBlobSize` bytes contain the text of the next reference; so an object
longer than the ceiling whose first `MaxSchemaBlobSize` bytes contain that text
passes, whatever size is reported. Two objects that agree on their first
`MaxSchemaBlobSize` bytes (and on how their streams end) give the same
outcome. -/
theorem C16_interior_decided_by_bounded_read (env₁ env₂ : Env) (chain : List Ref) (i : Nat)
    (t : Bool) (br next : Ref) (f₁ f₂ : File) (s₁ s₂ : Int)
    (hi : 0 < i) (hbr : chain[i]? = some br) (hnext : chain[i + 1]? = some next)
    (hmax : env₁.MaxSchemaBlobSize = env₂.MaxSchemaBlobSize)
    (hr₁ : arrive env₁ chain i = some t) (hr₂ : arrive env₂ chain i = some t)
    (hf₁ : env₁.FetchStreaming br = .ok (f₁, s₁))
    (hf₂ : env₂.FetchStreaming br = .ok (f₂, s₂))
    (hagree : f₁.data.take env₁.MaxSchemaBlobSize.toNat =
      f₂.data.take env₁.MaxSchemaBlobSize.toNat)
    (herr : f₁.readErr = f₂.readErr) :
    (env₁.MaxSchemaBlobSize.toNat ≤ f₁.data.length ∨ f₁.readErr = none →
        (next.String <:+: f₁.data.take env₁.MaxSchemaBlobSize.toNat →
          arrive env₁ chain (i + 1) = some t) ∧
        (¬ next.String <:+: f₁.data.take env₁.MaxSchemaBlobSize.toNat →
          arrive env₁ chain (i + 1) = none)) ∧
      (env₁.MaxSchemaBlobSize.toNat < f₁.data.length →
        next.String <:+: f₁.data.take env₁.MaxSchemaBlobSize.toNat →
        arrive env₁ chain (i + 1) = some t) ∧
      arrive env₁ chain (i + 1) = arrive env₂ chain (i + 1) := by
  have hlen : i + 1 < chain.length := by
    by_contra hc
    rw [List.getElem?_eq_none (by omega)] at hnext
    cases hnext
  have hstep₁ := arrive_interior_step env₁ chain i t hi hlen hr₁
  have hstep₂ := arrive_interior_step env₂ chain i t hi hlen hr₂
  have hiff₁ := interiorPasses_iff env₁ chain i br next f₁ s₁ hbr hnext hf₁
  have hiff₂ := interiorPasses_iff env₂ chain i br next f₂ s₂ hbr hnext hf₂
  have hdecided : env₁.MaxSchemaBlobSize.toNat ≤ f₁.data.length ∨ f₁.readErr = none →
      (InteriorPasses env₁ chain i ↔
        next.String <:+: f₁.data.take env₁.MaxSchemaBlobSize.toNat) := by
    intro h
    rw [hiff₁, readAllLimit_eq_take f₁ _ h]
    constructor
    · rintro ⟨slurp, h1, h2⟩
      cases h1; exact h2
    · intro h2; exact ⟨_, rfl, h2⟩
  refine ⟨fun h => ⟨fun hin => ?_, fun hnin => ?_⟩, fun hlong hin => ?_, ?_⟩
  · exact hstep₁.1 ((hdecided h).2 hin)
  · exact hstep₁.2 (fun hp => hnin ((hdecided h).1 hp))
  · exact hstep₁.1 ((hdecided (Or.inl (by omega))).2 hin)
  · have hread : readAllLimit f₁ env₁.MaxSchemaBlobSize =
        readAllLimit f₂ env₂.MaxSchemaBlobSize := by
      rw [← hmax]
      exact readAllLimit_congr f₁ f₂ _ hagree herr
    have hsame : InteriorPasses env₁ chain i ↔ InteriorPasses env₂ chain i := by
      rw [hiff₁, hiff₂, hread]
    by_cases hp : InteriorPasses env₁ chain i
    · rw [hstep₁.1 hp, hstep₂.1 (hsame.1 hp)]
    · rw [hstep₁.2 hp, hstep₂.2 (fun h => hp (hsame.2 h))]

/-- Witness of C16: two objects of 30 bytes that agree on their first 16 bytes,
which mention `refB`, in a store with a ceiling of 16 bytes. -/
theorem C16_interior_decided_by_bounded_read_witness :
    arrive (storeWithA (ascii "see sha1-b, and then more text")) [refS, refA, refB] 2 =
        some true ∧
      arrive (storeWithA (ascii "see sha1-b, and then more text")) [refS, refA, refB] 2 =
        arrive (storeWithA (ascii "see sha1-b, and something else")) [refS, refA, refB] 2 :=
  have h := C16_interior_decided_by_bounded_read
    (storeWithA (ascii "see sha1-b, and then more text"))
    (storeWithA (ascii "see sha1-b, and something else")) [refS, refA, refB] 1 true
    refA refB ⟨ascii "see sha1-b, and then more text", none⟩
    ⟨ascii "see sha1-b, and something else", none⟩ 30 30
    (by decide) rfl rfl rfl (by decide) (by decide) rfl rfl (by decide) rfl
  ⟨h.2.1 (by decide) ⟨ascii "see ", ascii ", and ", by decide⟩, h.2.2⟩

/-! ## The order of the fetches -/

theorem fetches_append (xs ys : List Event) :
    fetches (xs ++ ys) = fetches xs ++ fetches ys := by
  induction xs with
  | nil => rfl
  | cons x xs ih => cases x <;> simp [fetches, ih]

theorem fetches_rootHop (env : Env) (chain : List Ref) (br : Ref) :
    fetches (rootHop env chain br).events = [br] := by
  unfold rootHop
  repeat' split
  all_goals simp [fetches]

theorem fetches_interiorHop (env : Env) (chain : List Ref) (i : Nat) (br : Ref) (t : Bool) :
    fetches (interiorHop env chain i br t).events = [br] := by
  unfold interiorHop
  repeat' split
  all_goals first
    | (simp [fetches]; done)
    | (dsimp only; split_ifs <;> simp [fetches])

theorem fetches_hop (env : Env) (chain : List Ref) (i : Nat) (br : Ref) (t : Bool) :
    fetches (hop env chain i br t).events =
      if i = 0 ∨ i ≠ chain.length - 1 then [br] else [] := by
  unfold hop
  by_cases h0 : i = 0
  · rw [if_pos h0, if_pos (Or.inl h0)]
    exact fetches_rootHop env chain br
  · rw [if_neg h0]
    by_cases hl : i = chain.length - 1
    · have hcond : ¬ (i = 0 ∨ i ≠ chain.length - 1) := by
        rintro (h | h)
        · exact h0 h
        · exact h hl
      rw [if_pos hl, if_neg hcond]
      rfl
    · rw [if_neg hl, if_pos (Or.inr hl)]
      exact fetches_interiorHop env chain i br t

theorem walkLoop_cons_events (env : Env) (chain : List Ref) (i : Nat) (br : Ref)
    (rest : List Ref) (t : Bool) :
    (walkLoop env chain i (br :: rest) t).events =
      (hop env chain i br t).events ++
        match (hop env chain i br t).result with
        | none => []
        | some u => (walkLoop env chain (i + 1) rest u).events := by
  rw [walkLoop]
  cases h : (hop env chain i br t).result with
  | none => simp [h]
  | some u => simp

theorem arrive_isSome_of_le (env : Env) (chain : List Ref) (k m : Nat) (hkm : k ≤ m)
    (h : (arrive env chain m).isSome = true) : (arrive env chain k).isSome = true := by
  cases hk : arrive env chain k with
  | some t => rfl
  | none =>
    rw [arrive_none_of_le env chain k m hkm hk] at h
    cases h

theorem fetchBound_le (n : Nat) (hn : 1 ≤ n) : fetchBound n ≤ n := by
  unfold fetchBound
  omega

theorem take_succ_of_getElem? (chain : List Ref) (i : Nat) (br : Ref)
    (hbr : chain[i]? = some br) : chain.take (i + 1) = chain.take i ++ [br] := by
  rw [List.take_succ, hbr]
  rfl

theorem walkLoop_fetches (env : Env) (chain : List Ref) :
    ∀ (rest : List Ref) (i : Nat) (t : Bool), chain.drop i = rest → i ≤ chain.length →
      arrive env chain i = some t →
        chain.take (min i (fetchBound chain.length)) ++
            fetches (walkLoop env chain i rest t).events <+:
          chain.take (fetchBound chain.length) ∧
        ∀ k, k < min i (fetchBound chain.length) +
              (fetches (walkLoop env chain i rest t).events).length ↔
            (k < fetchBound chain.length ∧ k < chain.length ∧
              (arrive env chain k).isSome = true) := by
  intro rest
  induction rest with
  | nil =>
    intro i t hdrop hle harr
    have hlen : chain.length ≤ i := List.drop_eq_nil_iff.1 hdrop
    have hi : i = chain.length := by omega
    have hev : fetches (walkLoop env chain i [] t).events = [] := by simp [walkLoop, fetches]
    rw [hev, List.append_nil]
    refine ⟨List.take_prefix_take_left chain (Nat.min_le_right _ _), fun k => ?_⟩
    simp only [List.length_nil, Nat.add_zero]
    constructor
    · intro hk
      refine ⟨by omega, by omega, ?_⟩
      exact arrive_isSome_of_le env chain k i (by omega) (by rw [harr]; rfl)
    · rintro ⟨h1, h2, _⟩
      omega
  | cons br rest ih =>
    intro i t hdrop hle harr
    have hilt : i < chain.length := by
      by_contra hc
      have : chain.drop i = [] := List.drop_eq_nil_iff.2 (by omega)
      rw [this] at hdrop; cases hdrop
    have hbr : chain[i]? = some br := by
      have h1 : (chain.drop i)[0]? = some br := by rw [hdrop]; simp
      simpa [List.getElem?_drop] using h1
    have hrest : chain.drop (i + 1) = rest := by
      have h1 : (chain.drop i).drop 1 = rest := by rw [hdrop]; rfl
      rw [List.drop_drop] at h1
      rw [← h1, Nat.add_comm]
    have hstep := arrive_succ_of_some env chain i t br harr hbr
    have hsome_le : ∀ k, k ≤ i → (arrive env chain k).isSome = true := fun k hk =>
      arrive_isSome_of_le env chain k i hk (by rw [harr]; rfl)
    have hB : i < fetchBound chain.length ↔ (i = 0 ∨ i ≠ chain.length - 1) := by
      unfold fetchBound; omega
    rw [walkLoop_cons_events, fetches_append, fetches_hop]
    by_cases hfetch : i = 0 ∨ i ≠ chain.length - 1
    · have hiB : i < fetchBound chain.length := hB.2 hfetch
      rw [if_pos hfetch, Nat.min_eq_left (le_of_lt hiB), ← List.append_assoc,
        ← take_succ_of_getElem? chain i br hbr]
      cases hr : (hop env chain i br t).result with
      | none =>
        rw [hr] at hstep
        simp only [fetches, List.append_nil, List.length_append, List.length_singleton,
          List.length_nil, Nat.add_zero]
        refine ⟨List.take_prefix_take_left chain (by omega), fun k => ?_⟩
        constructor
        · intro hk
          exact ⟨by omega, by omega, hsome_le k (by omega)⟩
        · rintro ⟨_, _, h3⟩
          by_contra hc
          rw [arrive_none_of_le env chain (i + 1) k (by omega) hstep] at h3
          cases h3
      | some u =>
        rw [hr] at hstep
        have ih2 := ih (i + 1) u hrest (by omega) hstep
        dsimp only
        have hmin : min (i + 1) (fetchBound chain.length) = i + 1 := by omega
        rw [hmin] at ih2
        refine ⟨ih2.1, fun k => ?_⟩
        rw [← ih2.2 k]
        simp only [List.length_append, List.length_singleton]
        omega
    · have hiB : ¬ i < fetchBound chain.length := fun h => hfetch (hB.1 h)
      have hlast : i = chain.length - 1 := by
        by_contra hc; exact hfetch (Or.inr hc)
      have h0 : ¬ i = 0 := fun h => hfetch (Or.inl h)
      have hhop : hop env chain i br t = ⟨[], [], some t⟩ := by
        unfold hop
        rw [if_neg h0, if_pos hlast]
      rw [if_neg hfetch, hhop]
      rw [hhop] at hstep
      have ih2 := ih (i + 1) t hrest (by omega) hstep
      dsimp only
      have hmin : min (i + 1) (fetchBound chain.length) = min i (fetchBound chain.length) := by
        omega
      rw [hmin] at ih2
      simpa using ih2

theorem hop_congr (env₁ env₂ : Env) (chain : List Ref) (i : Nat) (br : Ref) (t : Bool)
    (hmax : env₁.MaxSchemaBlobSize = env₂.MaxSchemaBlobSize)
    (hfetch : env₁.FetchStreaming br = env₂.FetchStreaming br)
    (hdec : ∀ file, env₁.BlobFromReader br file = env₂.BlobFromReader br file) :
    hop env₁ chain i br t = hop env₂ chain i br t := by
  unfold hop rootHop interiorHop
  rw [hfetch, hmax]
  simp only [hdec]

theorem walkLoop_congr (env₁ env₂ : Env) (chain : List Ref)
    (hmax : env₁.MaxSchemaBlobSize = env₂.MaxSchemaBlobSize)
    (hlen : 2 ≤ chain.length)
    (hagree : ∀ j br, j + 1 < chain.length → chain[j]? = some br →
      env₁.FetchStreaming br = env₂.FetchStreaming br ∧
        ∀ file, env₁.BlobFromReader br file = env₂.BlobFromReader br file) :
    ∀ (rest : List Ref) (i : Nat) (t : Bool), chain.drop i = rest →
      walkLoop env₁ chain i rest t = walkLoop env₂ chain i rest t := by
  intro rest
  induction rest with
  | nil => intro i t _; simp [walkLoop]
  | cons br rest ih =>
    intro i t hdrop
    have hilt : i < chain.length := by
      by_contra hc
      have : chain.drop i = [] := List.drop_eq_nil_iff.2 (by omega)
      rw [this] at hdrop; cases hdrop
    have hbr : chain[i]? = some br := by
      have h1 : (chain.drop i)[0]? = some br := by rw [hdrop]; simp
      simpa [List.getElem?_drop] using h1
    have hrest : chain.drop (i + 1) = rest := by
      have h1 : (chain.drop i).drop 1 = rest := by rw [hdrop]; rfl
      rw [List.drop_drop] at h1
      rw [← h1, Nat.add_comm]
    have hhop : hop env₁ chain i br t = hop env₂ chain i br t := by
      by_cases hnext : i + 1 < chain.length
      · obtain ⟨h1, h2⟩ := hagree i br hnext hbr
        exact hop_congr env₁ env₂ chain i br t hmax h1 h2
      · have h0 : ¬ i = 0 := by omega
        have hl : i = chain.length - 1 := by omega
        unfold hop
        rw [if_neg h0, if_pos hl, if_neg h0, if_pos hl]
    rw [walkLoop, walkLoop, hhop]
    cases (hop env₂ chain i br t).result with
    | none => rfl
    | some u =>
      dsimp only
      rw [ih (i + 1) u hrest]

/-- C17: the walk fetches in chain order and stops at the first failure. The
references it fetches are a prefix of `chain[0], ..., chain[max(0, n-2)]`; the
hop at position `k` is fetched exactly when `k` is one of these positions and
the walk arrives at it, that is, when no earlier hop has failed; for a chain of
two or more elements the last element is not fetched; and two stores that
differ only at a last element that occurs nowhere else in the chain give the
same walk and the same outcome. -/
theorem C17_fetches_in_order (env : Env) (chain : List Ref) :
    fetches (chainWalk env chain).events <+: chain.take (fetchBound chain.length) ∧
      (∀ k, k < (fetches (chainWalk env chain).events).length ↔
        (k < fetchBound chain.length ∧ k < chain.length ∧
          (arrive env chain k).isSome = true)) ∧
      (2 ≤ chain.length → fetches (chainWalk env chain).events <+: chain.dropLast) ∧
      (∀ (env₂ : Env) (init : List Ref) (leaf : Ref),
        chain = init ++ [leaf] → init ≠ [] → leaf ∉ init →
        env.MaxSchemaBlobSize = env₂.MaxSchemaBlobSize →
        (∀ br, br ≠ leaf → env.FetchStreaming br = env₂.FetchStreaming br ∧
          ∀ file, env.BlobFromReader br file = env₂.BlobFromReader br file) →
        chainWalk env chain = chainWalk env₂ chain ∧
          verify env chain = verify env₂ chain) := by
  have hmain := walkLoop_fetches env chain chain 0 false rfl (by omega) rfl
  have hpfx : fetches (chainWalk env chain).events <+:
      chain.take (fetchBound chain.length) := by
    have := hmain.1
    simpa [chainWalk] using this
  refine ⟨hpfx, fun k => ?_, fun hlen => ?_, ?_⟩
  · have := hmain.2 k
    simpa [chainWalk] using this
  · have hb : fetchBound chain.length = chain.length - 1 := by
      unfold fetchBound; omega
    rw [hb, ← List.dropLast_eq_take] at hpfx
    exact hpfx
  · intro env₂ init leaf hch hinit hleaf hmax hagree
    have hlen : 2 ≤ chain.length := by
      rw [hch, List.length_append, List.length_singleton]
      have : 0 < init.length := List.length_pos.2 hinit
      omega
    have hwalk : chainWalk env chain = chainWalk env₂ chain := by
      unfold chainWalk
      apply walkLoop_congr env env₂ chain hmax hlen _ chain 0 false rfl
      intro j br hj hbr
      apply hagree br
      intro hbl
      have hjlt : j < init.length := by
        rw [hch, List.length_append, List.length_singleton] at hj
        omega
      rw [hch, List.getElem?_append_left hjlt] at hbr
      have hmem : br ∈ init := List.getElem?_mem hbr
      rw [hbl] at hmem
      exact hleaf hmem
    exact ⟨hwalk, by unfold verify; rw [hwalk]⟩

/-- Witness of C17: in the sample store the walk over `refS, refA, refB, refC`
fetches `refS, refA, refB`, and adding the object `refC` to the store changes
nothing. -/
theorem C17_fetches_in_order_witness :
    fetches (chainWalk sampleEnv [refS, refA, refB, refC]).events <+: [refS, refA, refB] ∧
      verify sampleEnv [refS, refA, refB, refC] =
        verify (storeWithC (ascii "leaf")) [refS, refA, refB, refC] :=
  have h := C17_fetches_in_order sampleEnv [refS, refA, refB, refC]
  ⟨h.2.2.1 (by decide),
    (h.2.2.2 (storeWithC (ascii "leaf")) [refS, refA, refB] refC rfl (by decide) (by decide)
      rfl (fun br hbr => ⟨by simp [storeWithC, hbr], fun _ => rfl⟩)).2⟩

end ShareHandler
